import Mathlib

/-
  Verification development for the HMM core of the xmm repository
  (src/src/models/hmm.cpp, src/src/base/training_set.h).

  C++ `double`/`float` values are modelled by `Dbl`: an exact rational
  together with the IEEE special values +inf, -inf and NaN.  Rounding and
  overflow are not modelled (sums and products of finite values stay
  exact), but the IEEE rules for division by zero and for propagation of
  NaN/infinity - the behaviours the specification's edge-case claims are
  about - are modelled faithfully.
-/

inductive Dbl where
  | fin : ℚ → Dbl
  | inf : Dbl
  | ninf : Dbl
  | nan : Dbl
deriving DecidableEq, Repr

/-- The check `isnan(x) || isinf(abs(x))` is false exactly on finite values. -/
def Dbl.isFinite : Dbl → Bool
  | .fin _ => true
  | _ => false

/-- IEEE addition (exact on finite values). -/
def Dbl.add : Dbl → Dbl → Dbl
  | .nan, _ => .nan
  | _, .nan => .nan
  | .inf, .ninf => .nan
  | .ninf, .inf => .nan
  | .inf, _ => .inf
  | _, .inf => .inf
  | .ninf, _ => .ninf
  | _, .ninf => .ninf
  | .fin a, .fin b => .fin (a + b)

/-- IEEE negation. -/
def Dbl.neg : Dbl → Dbl
  | .fin a => .fin (-a)
  | .inf => .ninf
  | .ninf => .inf
  | .nan => .nan

/-- IEEE multiplication (exact on finite values; `inf * 0 = nan`). -/
def Dbl.mul : Dbl → Dbl → Dbl
  | .nan, _ => .nan
  | _, .nan => .nan
  | .fin a, .fin b => .fin (a * b)
  | .inf, .fin b => if b = 0 then .nan else if 0 < b then .inf else .ninf
  | .fin a, .inf => if a = 0 then .nan else if 0 < a then .inf else .ninf
  | .ninf, .fin b => if b = 0 then .nan else if 0 < b then .ninf else .inf
  | .fin a, .ninf => if a = 0 then .nan else if 0 < a then .ninf else .inf
  | .inf, .inf => .inf
  | .inf, .ninf => .ninf
  | .ninf, .inf => .ninf
  | .ninf, .ninf => .inf

/-- IEEE division: `0/0 = nan`, `x/0 = ±inf` for finite `x ≠ 0`,
`x/±inf = 0` for finite `x`, `±inf/±inf = nan`. -/
def Dbl.div : Dbl → Dbl → Dbl
  | .nan, _ => .nan
  | _, .nan => .nan
  | .fin a, .fin b =>
      if b = 0 then (if a = 0 then .nan else if 0 < a then .inf else .ninf)
      else .fin (a / b)
  | .fin _, .inf => .fin 0
  | .fin _, .ninf => .fin 0
  | .inf, .fin b => if 0 ≤ b then .inf else .ninf
  | .ninf, .fin b => if 0 ≤ b then .ninf else .inf
  | .inf, _ => .nan
  | .ninf, _ => .nan

/-- IEEE `<` (false whenever either argument is NaN). -/
def Dbl.lt : Dbl → Dbl → Bool
  | .nan, _ => false
  | _, .nan => false
  | .fin a, .fin b => decide (a < b)
  | .fin _, .inf => true
  | .ninf, .fin _ => true
  | .ninf, .inf => true
  | _, _ => false

/-- Left-to-right accumulation `acc = 0; for (i = 0; i < n; i++) acc += f(i);`
exactly as the C++ loops accumulate into a local `double`. -/
def Dbl.sumTo (f : ℕ → Dbl) : ℕ → Dbl
  | 0 => .fin 0
  | n + 1 => (Dbl.sumTo f n).add (f n)

/-- The rational payload of a finite value (0 for the special values);
used when a double is written into a JSON document. -/
def Dbl.toRat : Dbl → ℚ
  | .fin a => a
  | _ => 0

/-
  ===================  Data model  ===================
-/

/-- enum TRANSITION_MODE (hmm.h): ergodic or left-right topology. -/
inductive TRANSITION_MODE where
  | ERGODIC : TRANSITION_MODE
  | LEFT_RIGHT : TRANSITION_MODE
deriving DecidableEq, Repr

/-- The per-state GMM parameters that hmm.cpp reads and writes directly:
`states_[i].mixtureCoeffs[c]`, `states_[i].components[c].mean[d]`,
`states_[i].components[c].covariance[d1*dimension+d2]` (flat).  The GMM's
own likelihood machinery lives in gmm.cpp, which is not under src/. -/
structure GMMState where
  mixtureCoeffs : ℕ → Dbl
  means : ℕ → ℕ → Dbl
  covariances : ℕ → ℕ → Dbl

/-- A freshly constructed GMM state (all parameters zero), as produced by
`states_.assign(nbStates_, GMM(...))` in `HMM::allocate`. -/
def GMMState.fresh : GMMState :=
  { mixtureCoeffs := fun _ => Dbl.fin 0
    means := fun _ _ => Dbl.fin 0
    covariances := fun _ _ => Dbl.fin 0 }

/-- Modelled from the spec: `GMM::initTraining` (gmm.cpp, not under src/) is
GMM-internal initialization; it touches only the emission model's own
parameters, none of the HMM fields the claims are about.  Modelled as the
identity on the parameters hmm.cpp reads back. -/
def GMMState.initTraining (g : GMMState) : GMMState := g

/-- Modelled from the spec (§4.4 step 3: "Zero each state's emission
parameters"; hmm.cpp comment: "set covariance and mixture coefficients to
zero for each state"): `GMM::setParametersToZero` zeroes the mixture
coefficients and covariances. -/
def GMMState.setParametersToZero (g : GMMState) : GMMState :=
  { g with mixtureCoeffs := fun _ => Dbl.fin 0
           covariances := fun _ _ => Dbl.fin 0 }

/-- Modelled from the spec (§4.4 step 4: "normalize per state"):
`GMM::normalizeMixtureCoeffs` divides each coefficient by their sum. -/
def GMMState.normalizeMixtureCoeffs (g : GMMState) (nbMix : ℕ) : GMMState :=
  { g with mixtureCoeffs := fun c =>
      if c < nbMix then (g.mixtureCoeffs c).div (Dbl.sumTo g.mixtureCoeffs nbMix)
      else g.mixtureCoeffs c }

/-- Modelled from the spec (§4.4 step 6: "regularization offset added"):
`GMM::addCovarianceOffset` adds the offset to the diagonal entries. -/
def GMMState.addCovarianceOffset (g : GMMState) (offset : ℚ) (dim : ℕ) : GMMState :=
  { g with covariances := fun c idx =>
      if idx < dim * dim ∧ idx / dim = idx % dim
      then (g.covariances c idx).add (Dbl.fin offset)
      else g.covariances c idx }

/-- Modelled from the spec (§4.4 step 6: "any inverse-covariance cache
refreshed"): `GMM::updateInverseCovariances` refreshes a cache that the
HMM never reads; the cache is not part of this model. -/
def GMMState.updateInverseCovariances (g : GMMState) : GMMState := g

/-- A phrase of the training-set collaborator (training_set.h): its length
and element access `(t, d)`. -/
structure Phrase where
  length : ℕ
  data : ℕ → ℕ → ℚ

/-- rtml_flags (rtml.h, not under src/): a bit set combining the NONE,
BIMODAL and HIERARCHICAL bits; `flags & HIERARCHICAL` and
`flags & BIMODAL` are the only reads hmm.cpp performs. -/
structure RtmlFlags where
  hierarchical : Bool
  bimodal : Bool
deriving DecidableEq, Repr

/-- Modelled from the spec: `HMM_DEFAULT_EXITPROBABILITY_LAST_STATE`
(hmm.h, not under src/), the default exit probability of the last state
("all exit mass on the last state"). -/
def HMM_DEFAULT_EXITPROBABILITY_LAST_STATE : ℚ := 1 / 10

/-- Modelled from the spec: `GAUSSIAN_DEFAULT_COVARIANCE_OFFSET` (gmm.h,
not under src/), the default covariance regularization offset; its exact
value is immaterial to every claim. -/
def GAUSSIAN_DEFAULT_COVARIANCE_OFFSET : ℚ := 1 / 100

/-- Modelled from the spec: `HMM_DEFAULT_ESTIMATEMEANS` (hmm.h, not under
src/), the default of the `estimateMeans` flag (§4.4 step 5 makes mean
re-estimation optional; the default enables it). -/
def HMM_DEFAULT_ESTIMATEMEANS : Bool := true

/-- The HMM model state (hmm.h data members used by hmm.cpp).  C++
`vector<double>` buffers are modelled as total functions `ℕ → Dbl`; the
code only reads and writes indices below the corresponding size
(`nbStates_`, `nbStates_*nbStates_`, ...), so `resize` calls are
identities here.  `exitProbabilities_` is kept as a list because
`updateExitProbabilities` resizes it with a fill value, which is
observable.  The flat transition matrix uses index `i*nbStates_+j`,
exactly as the source. -/
structure HMM where
  flags_ : RtmlFlags
  bimodal_ : Bool
  is_hierarchical_ : Bool
  dimension_ : ℕ
  trainingSet : Option (List Phrase)
  nbStates_ : ℕ
  nbMixtureComponents_ : ℕ
  covarianceOffset_ : ℚ
  transitionMode_ : TRANSITION_MODE
  estimateMeans_ : Bool
  prior_ : ℕ → Dbl
  transition_ : ℕ → Dbl
  alpha : ℕ → Dbl
  previousAlpha_ : ℕ → Dbl
  beta_ : ℕ → Dbl
  previousBeta_ : ℕ → Dbl
  exitProbabilities_ : List Dbl
  states_ : ℕ → GMMState
  trained : Bool
  forwardInitialized_ : Bool
  gammaSequence_ : ℕ → ℕ → Dbl
  epsilonSequence_ : ℕ → ℕ → Dbl
  gammaSequencePerMixture_ : ℕ → ℕ → ℕ → Dbl
  alpha_seq_ : ℕ → Dbl
  beta_seq_ : ℕ → Dbl
  gammaSum_ : ℕ → Dbl
  gammaSumPerMixture_ : ℕ → Dbl

/-
  ===================  Transition model (hmm.cpp lines 271-308)  ===================
-/

/-- HMM::setErgodic (hmm.cpp 271-279): prior and every transition entry
set to `1/(float)nbStates_`. -/
def HMM.setErgodic (m : HMM) : HMM :=
  let S := m.nbStates_
  { m with
    prior_ := fun i => if i < S then (Dbl.fin 1).div (Dbl.fin S) else m.prior_ i
    transition_ := fun k => if k < S * S then (Dbl.fin 1).div (Dbl.fin S) else m.transition_ k }

/-- HMM::setLeftRight (hmm.cpp 282-292): row i gets 0.5 at columns i and
i+1 (0 elsewhere), then the final flat entry `transition_[S*S-1]` is
overwritten with 1 and `prior_[0]` with 1 after the zeroing loop; the two
final writes are folded into the in-range cases of the functions. -/
def HMM.setLeftRight (m : HMM) : HMM :=
  let S := m.nbStates_
  { m with
    prior_ := fun i => if i < S then (if i = 0 then Dbl.fin 1 else Dbl.fin 0) else m.prior_ i
    transition_ := fun k =>
      if k < S * S then
        (if k = S * S - 1 then Dbl.fin 1
         else if k / S = k % S ∨ k / S + 1 = k % S then Dbl.fin (1 / 2) else Dbl.fin 0)
      else m.transition_ k }

/-- HMM::normalizeTransitions (hmm.cpp 295-308): each row is divided by
its own sum (computed before the row is overwritten), and the prior is
divided by its sum after the row loop.  There is no zero-sum guard: a
zero row sum makes the division `0.0/0.0`. -/
def HMM.normalizeTransitions (m : HMM) : HMM :=
  let S := m.nbStates_
  let norm_prior := Dbl.sumTo m.prior_ S
  let rowSum : ℕ → Dbl := fun i => Dbl.sumTo (fun j => m.transition_ (i * S + j)) S
  { m with
    transition_ := fun k =>
      if k < S * S then (m.transition_ k).div (rowSum (k / S)) else m.transition_ k
    prior_ := fun i => if i < S then (m.prior_ i).div norm_prior else m.prior_ i }

/-
  ===================  Forward-backward (hmm.cpp lines 426-544)  ===================
-/

/-- Accumulation continuing from a running value: `for (k = 0; k < n; k++)
acc += f(k);` starting from `init`. -/
def Dbl.sumFrom (init : Dbl) (f : ℕ → Dbl) : ℕ → Dbl
  | 0 => init
  | n + 1 => (Dbl.sumFrom init f n).add (f n)

/-- IEEE subtraction, `a - b = a + (-b)`. -/
def Dbl.sub (a b : Dbl) : Dbl := a.add b.neg

/-- Modelled from the spec (§4.2): the emission-model collaborator's
observation likelihood `GMM::obsProb(observation, mixtureComponent)`
(gmm.cpp, not under src/): a function of the state's parameters, the
observation row and the optional mixture component (`none` stands for
`component = -1`, aggregation over the whole mixture).  The
unimodal/bimodal dispatch in hmm.cpp (`obsProb` / `obsProb_input` /
`obsProb_bimodal`) only selects which collaborator likelihood is
evaluated on the same observation row, so one abstract function covers
the three entry points. -/
def ObsLik : Type := GMMState → (ℕ → ℚ) → Option ℕ → Dbl

/-- The per-state emission likelihood of observation row `t` of a phrase
(aggregated over the mixture), as used by the forward-backward loops. -/
def HMM.obsAt (obsP : ObsLik) (m : HMM) (p : Phrase) (t : ℕ) : ℕ → Dbl :=
  fun i => obsP (m.states_ i) (fun d => p.data t d) none

/-- HMM::forward_init (hmm.cpp 426-451): `alpha[i] = prior[i] *
obsProb(obs, i)`; if the normalizing constant is positive, scale `alpha`
to sum to 1 and return `1/norm_const`, otherwise fall back to the uniform
vector and return 1. -/
def HMM.forward_init (m : HMM) (b : ℕ → Dbl) : HMM × Dbl :=
  let S := m.nbStates_
  let a0 : ℕ → Dbl := fun i => (m.prior_ i).mul (b i)
  let norm_const := Dbl.sumTo a0 S
  if (Dbl.fin 0).lt norm_const then
    ({ m with alpha := fun i => if i < S then (a0 i).div norm_const else m.alpha i },
      (Dbl.fin 1).div norm_const)
  else
    ({ m with alpha := fun i => if i < S then (Dbl.fin 1).div (Dbl.fin S) else m.alpha i },
      Dbl.fin 1)

/-- HMM::forward_update (hmm.cpp 454-484): `previousAlpha_ = alpha`, then
`alpha[j] = (Σ_i previousAlpha[i] * transition[i*S+j]) * obsProb(obs, j)`
with the same scaling-or-uniform-fallback policy as `forward_init`. -/
def HMM.forward_update (m : HMM) (b : ℕ → Dbl) : HMM × Dbl :=
  let S := m.nbStates_
  let prevA := m.alpha
  let a1 : ℕ → Dbl := fun j =>
    (Dbl.sumTo (fun i => (prevA i).mul (m.transition_ (i * S + j))) S).mul (b j)
  let norm_const := Dbl.sumTo a1 S
  if (Dbl.fin 0).lt norm_const then
    ({ m with previousAlpha_ := prevA,
              alpha := fun j => if j < S then (a1 j).div norm_const else m.alpha j },
      (Dbl.fin 1).div norm_const)
  else
    ({ m with previousAlpha_ := prevA,
              alpha := fun j => if j < S then (Dbl.fin 1).div (Dbl.fin S) else m.alpha j },
      Dbl.fin 1)

/-- HMM::backward_init (hmm.cpp 516-520): `beta_[i] = ct`. -/
def HMM.backward_init (m : HMM) (ct : Dbl) : HMM :=
  { m with beta_ := fun i => if i < m.nbStates_ then ct else m.beta_ i }

/-- The value `beta_[i]` computed by the loop body of
HMM::backward_update (hmm.cpp 526-539) before the finiteness clamp:
`(Σ_j transition[i*S+j] * previousBeta_[j] * obsProb(obs, j)) * ct`,
where `previousBeta_` is the incoming `beta_`. -/
def HMM.backward_raw (m : HMM) (ct : Dbl) (b : ℕ → Dbl) (i : ℕ) : Dbl :=
  (Dbl.sumTo (fun j => ((m.transition_ (i * m.nbStates_ + j)).mul (m.beta_ j)).mul (b j))
    m.nbStates_).mul ct

/-- HMM::backward_update (hmm.cpp 523-544): `previousBeta_ = beta_`, each
`beta_[i]` recomputed right-to-left and, when
`isnan(beta_[i]) || isinf(abs(beta_[i]))`, replaced in place by the
finite sentinel `1e100`. -/
def HMM.backward_update (m : HMM) (ct : Dbl) (b : ℕ → Dbl) : HMM :=
  { m with
    previousBeta_ := m.beta_,
    beta_ := fun i =>
      if i < m.nbStates_ then
        (if (m.backward_raw ct b i).isFinite then m.backward_raw ct b i
         else Dbl.fin (10 ^ 100))
      else m.beta_ i }

/-
  ===================  Exit probabilities (hmm.cpp lines 1204-1230)  ===================
-/

/-- The effect of `vector::resize(n, fill)`: keep the first `min(n, old length)` values,
append `fill` up to length `n`. -/
def listResize (l : List Dbl) (n : ℕ) (fill : Dbl) : List Dbl :=
  l.take n ++ List.replicate (n - l.length) fill

/-- The effect of `updateExitProbabilities(NULL)` on the vector (hmm.cpp
1208-1210): resize with fill 0, then overwrite the last entry with the
default constant. -/
def exitProbsDefault (l : List Dbl) (S : ℕ) : List Dbl :=
  (listResize l S (Dbl.fin 0)).set (S - 1) (Dbl.fin HMM_DEFAULT_EXITPROBABILITY_LAST_STATE)

/-- HMM::updateExitProbabilities (hmm.cpp 1204-1220): throws when the
model is not hierarchical; with NULL it resizes the vector with fill 0
and overwrites the last entry with the default constant; with an array it
resizes and copies the first `nbStates_` entries (the try/catch around
the raw-float-array copy cannot fire and is dead code). -/
def HMM.updateExitProbabilities (m : HMM) (ep : Option (ℕ → ℚ)) : Except String HMM :=
  if m.is_hierarchical_ = false then
    Except.error "Model is Not hierarchical: method cannot be used"
  else
    match ep with
    | none =>
        Except.ok { m with exitProbabilities_ := exitProbsDefault m.exitProbabilities_ m.nbStates_ }
    | some arr =>
        Except.ok { m with exitProbabilities_ := (List.range m.nbStates_).map (fun i => Dbl.fin (arr i)) }

/-- HMM::addExitPoint (hmm.cpp 1223-1230): throws when the model is not
hierarchical, throws out_of_range when `stateIndex >= nbStates_`, and
otherwise writes one exit probability. -/
def HMM.addExitPoint (m : HMM) (stateIndex : ℕ) (proba : ℚ) : Except String HMM :=
  if m.is_hierarchical_ = false then
    Except.error "Model is Not hierarchical: method cannot be used"
  else if m.nbStates_ ≤ stateIndex then
    Except.error "State index out of bounds"
  else
    Except.ok { m with exitProbabilities_ := m.exitProbabilities_.set stateIndex (Dbl.fin proba) }

/-
  ===================  Construction (hmm.cpp lines 17-43, 101-112)  ===================
-/

/-- HMM::allocate (hmm.cpp 101-112): the `vector::resize` calls on
`prior_`, `transition_`, `alpha`, `previousAlpha_`, `beta_` and
`previousBeta_` are identities on the total-function model;
`states_.assign(nbStates_, GMM(...))` replaces every state by a fresh
GMM; when hierarchical, `updateExitProbabilities(NULL)` runs (inlined
via `exitProbsDefault`: its non-hierarchical error branch is unreachable
under the guard). -/
def HMM.allocate (m : HMM) : HMM :=
  let m1 := { m with states_ := fun _ => GMMState.fresh }
  if m1.is_hierarchical_ then
    { m1 with exitProbabilities_ := exitProbsDefault m1.exitProbabilities_ m1.nbStates_ }
  else m1

/-- HMM::initMeansWithFirstPhrase (hmm.cpp 130-154): component-0 means
from consecutive blocks of `length/nbStates_` frames of the first phrase
(`factor[n] = step`; a zero `step` divides by zero). -/
def HMM.initMeansWithFirstPhrase (m : HMM) : HMM :=
  match m.trainingSet with
  | none => m
  | some ts =>
    if ts.isEmpty then m
    else
      let p0 := ts.headD { length := 0, data := fun _ _ => 0 }
      let S := m.nbStates_
      let step := p0.length / S
      { m with
        states_ := fun n =>
          if n < S then
            { m.states_ n with
              means := fun c d =>
                if c = 0 ∧ d < m.dimension_ then
                  (Dbl.sumTo (fun t => Dbl.fin (p0.data (n * step + t) d)) step).div
                    (Dbl.fin step)
                else (m.states_ n).means c d }
          else m.states_ n }

/-- HMM::initCovariancesWithAllPhrases_single (hmm.cpp 187-218):
component-0 covariances start at `-mean[d1]*mean[d2]`, accumulate raw
second moments over each phrase's block of `length/nbStates_` frames, and
are divided by `factor[n] = Σ_p step_p`. -/
def HMM.initCovariancesWithAllPhrases_single (m : HMM) : HMM :=
  match m.trainingSet with
  | none => m
  | some ts =>
    if ts.isEmpty then m
    else
      let S := m.nbStates_
      let dim := m.dimension_
      let factor : ℕ := ts.foldl (fun acc p => acc + p.length / S) 0
      { m with
        states_ := fun n =>
          if n < S then
            { m.states_ n with
              covariances := fun c idx =>
                if c = 0 ∧ idx < dim * dim then
                  let d1 := idx / dim
                  let d2 := idx % dim
                  let start := (((m.states_ n).means 0 d1).mul ((m.states_ n).means 0 d2)).neg
                  (ts.foldl (fun acc p =>
                      let step := p.length / S
                      Dbl.sumFrom acc (fun t =>
                        (Dbl.fin (p.data (n * step + t) d1)).mul
                          (Dbl.fin (p.data (n * step + t) d2))) step)
                    start).div (Dbl.fin factor)
                else (m.states_ n).covariances c idx }
          else m.states_ n }

/-- HMM::initMeansWithAllPhrases_mixture (hmm.cpp 221-241): for each
phrase index below `min(nbPhrases, nbMixtureComponents_)`, component i's
means average that phrase's block frames (each term divided by
`float(step)` during accumulation, as in the source). -/
def HMM.initMeansWithAllPhrases_mixture (m : HMM) : HMM :=
  match m.trainingSet with
  | none => m
  | some ts =>
    if ts.isEmpty then m
    else
      let S := m.nbStates_
      let nbP := min ts.length m.nbMixtureComponents_
      { m with
        states_ := fun n =>
          if n < S then
            { m.states_ n with
              means := fun c d =>
                if c < nbP ∧ d < m.dimension_ then
                  let p := ts.getD c { length := 0, data := fun _ _ => 0 }
                  let step := p.length / S
                  Dbl.sumTo (fun t =>
                    (Dbl.fin (p.data (n * step + t) d)).div (Dbl.fin step)) step
                else (m.states_ n).means c d }
          else m.states_ n }

/-- HMM::initCovariancesWithAllPhrases_mixture (hmm.cpp 244-268):
analogous per-mixture covariances, starting at `-mean[d1]*mean[d2]` and
accumulating `data*data/float(step)`. -/
def HMM.initCovariancesWithAllPhrases_mixture (m : HMM) : HMM :=
  match m.trainingSet with
  | none => m
  | some ts =>
    if ts.isEmpty then m
    else
      let S := m.nbStates_
      let dim := m.dimension_
      let nbP := min ts.length m.nbMixtureComponents_
      { m with
        states_ := fun n =>
          if n < S then
            { m.states_ n with
              covariances := fun c idx =>
                if c < nbP ∧ idx < dim * dim then
                  let p := ts.getD c { length := 0, data := fun _ _ => 0 }
                  let step := p.length / S
                  let d1 := idx / dim
                  let d2 := idx % dim
                  let start := (((m.states_ n).means c d1).mul ((m.states_ n).means c d2)).neg
                  Dbl.sumFrom start (fun t =>
                    ((Dbl.fin (p.data (n * step + t) d1)).mul
                      (Dbl.fin (p.data (n * step + t) d2))).div (Dbl.fin step)) step
                else (m.states_ n).covariances c idx }
          else m.states_ n }

/-- HMM::initTraining (hmm.cpp 550-603): topology initialization
(ergodic or left-right), GMM-internal state initialization, then - only
when a training set is connected - emission initialization from the
phrases and `trained = false`.  The per-sequence buffer resizes (lines
580-602) are identities on the total-function buffers. -/
def HMM.initTraining (m : HMM) : HMM :=
  let m1 := if m.transitionMode_ = TRANSITION_MODE.ERGODIC then m.setErgodic else m.setLeftRight
  let m2 := { m1 with
    states_ := fun i =>
      if i < m1.nbStates_ then (m1.states_ i).initTraining else m1.states_ i }
  match m2.trainingSet with
  | none => m2
  | some _ =>
    let m3 := if 1 < m2.nbMixtureComponents_ then
        (m2.initMeansWithAllPhrases_mixture).initCovariancesWithAllPhrases_mixture
      else
        (m2.initMeansWithFirstPhrase).initCovariancesWithAllPhrases_single
    { m3 with trained := false }

/-- HMM::HMM (hmm.cpp 17-43): `is_hierarchical_ = !(flags &
HIERARCHICAL)`, capacity fields, `allocate()`, default transition mode
LEFT_RIGHT, default `estimateMeans_`, then `initTraining()`.  The
EMBasedModel base constructor (em_based_model.cpp, not under src/) is
modelled from the spec: it records the flags, sets `bimodal_` from the
BIMODAL bit, stores the training-set pointer and starts untrained;
`dimension_` comes from the training-set collaborator (1, the base
default, when none is connected).  The per-state `set_trainingSet` calls
touch only GMM-internal pointers. -/
def HMM.hmm_new (flags : RtmlFlags) (ts : Option (List Phrase)) (nbStates nbMix : ℕ) : HMM :=
  let base : HMM :=
    { flags_ := flags
      bimodal_ := flags.bimodal
      is_hierarchical_ := !flags.hierarchical
      dimension_ := 1
      trainingSet := ts
      nbStates_ := nbStates
      nbMixtureComponents_ := nbMix
      covarianceOffset_ := GAUSSIAN_DEFAULT_COVARIANCE_OFFSET
      transitionMode_ := TRANSITION_MODE.LEFT_RIGHT
      estimateMeans_ := HMM_DEFAULT_ESTIMATEMEANS
      prior_ := fun _ => Dbl.fin 0
      transition_ := fun _ => Dbl.fin 0
      alpha := fun _ => Dbl.fin 0
      previousAlpha_ := fun _ => Dbl.fin 0
      beta_ := fun _ => Dbl.fin 0
      previousBeta_ := fun _ => Dbl.fin 0
      exitProbabilities_ := []
      states_ := fun _ => GMMState.fresh
      trained := false
      forwardInitialized_ := false
      gammaSequence_ := fun _ _ => Dbl.fin 0
      epsilonSequence_ := fun _ _ => Dbl.fin 0
      gammaSequencePerMixture_ := fun _ _ _ => Dbl.fin 0
      alpha_seq_ := fun _ => Dbl.fin 0
      beta_seq_ := fun _ => Dbl.fin 0
      gammaSum_ := fun _ => Dbl.fin 0
      gammaSumPerMixture_ := fun _ => Dbl.fin 0 }
  (base.allocate).initTraining

/-
  ===================  Baum-Welch training (hmm.cpp lines 619-943)  ===================

  The scalar return value of `baumWelch_forwardBackward` /
  `baumWelch_update` is the accumulated sequence log-likelihood
  `-Σ_t log(ct)`; it is consumed only by the EM driver of the base model
  (out of scope, §1/§4.4 step 9) and by no claim, and is the only use of
  `log` in the file, so the embedded functions return the updated model
  state only.
-/

/-- The per-state, per-component emission likelihood of observation row
`t` of a phrase (`obsProb(obs_t, i, c)`). -/
def HMM.obsAtComp (obsP : ObsLik) (m : HMM) (p : Phrase) (t i c : ℕ) : Dbl :=
  obsP (m.states_ i) (fun d => p.data t d) (some c)

/-- The copy `copy(alpha.begin(), alpha.end(), seq_it)` at row `t` of a `T x S`
flat buffer: overwrite indices `t*S .. t*S+S-1` with the row. -/
def writeRow (buf : ℕ → Dbl) (S t : ℕ) (row : ℕ → Dbl) : ℕ → Dbl :=
  fun k => if t * S ≤ k ∧ k < (t + 1) * S then row (k - t * S) else buf k

/-- One step `t ≥ 1` of the forward pass of
HMM::baumWelch_forwardBackward (hmm.cpp 673-683): `forward_update`, store
the scale factor, copy `alpha` into row `t` of `alpha_seq_`. -/
def HMM.bwForwardStep (obsP : ObsLik) (p : Phrase) (acc : HMM × List Dbl) (t : ℕ) :
    HMM × List Dbl :=
  let r := (acc.1).forward_update (HMM.obsAt obsP acc.1 p t)
  ({ r.1 with alpha_seq_ := writeRow r.1.alpha_seq_ r.1.nbStates_ t r.1.alpha },
    acc.2 ++ [r.2])

/-- The forward pass of HMM::baumWelch_forwardBackward (hmm.cpp 662-683):
`forward_init` on row 0, then `forward_update` on rows 1..T-1, collecting
the scale factors `ct` and the rows of `alpha_seq_`. -/
def HMM.bwForward (obsP : ObsLik) (p : Phrase) (m : HMM) : HMM × List Dbl :=
  let r0 := m.forward_init (HMM.obsAt obsP m p 0)
  let mA := { r0.1 with alpha_seq_ := writeRow r0.1.alpha_seq_ r0.1.nbStates_ 0 r0.1.alpha }
  ((List.range (p.length - 1)).map (fun u => u + 1)).foldl (HMM.bwForwardStep obsP p)
    (mA, [r0.2])

/-- The backward pass of HMM::baumWelch_forwardBackward (hmm.cpp
685-701): `backward_init(ct[T-1])`, copy into row T-1 of `beta_seq_`,
then `backward_update(ct[t], obs_{t+1})` for t = T-2 down to 0. -/
def HMM.bwBackwardStep (obsP : ObsLik) (p : Phrase) (ctF : ℕ → Dbl) (acc : HMM) (t : ℕ) :
    HMM :=
  let r := acc.backward_update (ctF t) (HMM.obsAt obsP acc p (t + 1))
  { r with beta_seq_ := writeRow r.beta_seq_ r.nbStates_ t r.beta_ }

/-- The loop of the backward pass: `backward_update(ct[t], obs_{t+1})`
and the row copy, for t = T-2 down to 0. -/
def HMM.bwBackward (obsP : ObsLik) (p : Phrase) (cts : List Dbl) (m : HMM) : HMM :=
  let T := p.length
  let ctF : ℕ → Dbl := fun t => cts.getD t (Dbl.fin 0)
  let m0 := m.backward_init (ctF (T - 1))
  let m1 := { m0 with beta_seq_ := writeRow m0.beta_seq_ m0.nbStates_ (T - 1) m0.beta_ }
  ((List.range (T - 1)).reverse).foldl (HMM.bwBackwardStep obsP p ctF) m1

/-- The gamma computation of HMM::baumWelch_forwardBackward (hmm.cpp
703-708): `gamma[t*S+i] = alpha_seq[t*S+i] * beta_seq[t*S+i] / ct[t]`. -/
def HMM.bwGamma (p : Phrase) (phraseIndex : ℕ) (cts : List Dbl) (m : HMM) : HMM :=
  let S := m.nbStates_
  let T := p.length
  let ctF : ℕ → Dbl := fun t => cts.getD t (Dbl.fin 0)
  { m with
    gammaSequence_ := fun pi idx =>
      if pi = phraseIndex ∧ idx < T * S then
        ((m.alpha_seq_ idx).mul (m.beta_seq_ idx)).div (ctF (idx / S))
      else m.gammaSequence_ pi idx }

/-- The per-mixture gamma computation of HMM::baumWelch_forwardBackward
(hmm.cpp 710-735): each component's share `gamma * obsProb(obs_t, i, c)`,
renormalized over the components when their likelihood total is
positive. -/
def HMM.bwGammaPerMixture (obsP : ObsLik) (p : Phrase) (phraseIndex : ℕ) (m : HMM) : HMM :=
  let S := m.nbStates_
  let M := m.nbMixtureComponents_
  let T := p.length
  { m with
    gammaSequencePerMixture_ := fun pi c idx =>
      if pi = phraseIndex ∧ c < M ∧ idx < T * S then
        let t := idx / S
        let i := idx % S
        let oo : ℕ → Dbl := fun c2 => HMM.obsAtComp obsP m p t i c2
        let norm_const := Dbl.sumTo oo M
        let raw := (m.gammaSequence_ phraseIndex idx).mul (oo c)
        if (Dbl.fin 0).lt norm_const then raw.div norm_const else raw
      else m.gammaSequencePerMixture_ pi c idx }

/-- The epsilon computation of HMM::baumWelch_forwardBackward (hmm.cpp
737-753): `epsilon[t*S*S+i*S+j] = alpha_seq[t*S+i] * transition[i*S+j] *
beta_seq[(t+1)*S+j] * obsProb(obs_{t+1}, j)` for t < T-1. -/
def HMM.bwEpsilon (obsP : ObsLik) (p : Phrase) (phraseIndex : ℕ) (m : HMM) : HMM :=
  let S := m.nbStates_
  let T := p.length
  { m with
    epsilonSequence_ := fun pi idx =>
      if pi = phraseIndex ∧ idx < (T - 1) * S * S then
        let t := idx / (S * S)
        let rem := idx % (S * S)
        let i := rem / S
        let j := rem % S
        (((m.alpha_seq_ (t * S + i)).mul (m.transition_ (i * S + j))).mul
          (m.beta_seq_ ((t + 1) * S + j))).mul
          (obsP (m.states_ j) (fun d => p.data (t + 1) d) none)
      else m.epsilonSequence_ pi idx }

/-- HMM::baumWelch_forwardBackward (hmm.cpp 653-756): the forward pass,
the backward pass, then the gamma, per-mixture gamma and epsilon
variables of one phrase. -/
def HMM.baumWelch_forwardBackward (obsP : ObsLik) (m : HMM) (p : Phrase)
    (phraseIndex : ℕ) : HMM :=
  let fw := HMM.bwForward obsP p m
  let mB := HMM.bwBackward obsP p fw.2 fw.1
  ((mB.bwGamma p phraseIndex fw.2).bwGammaPerMixture obsP p phraseIndex).bwEpsilon obsP p
    phraseIndex

/-- HMM::baumWelch_gammaSum (hmm.cpp 758-781): zero the accumulators,
then sum gamma (and per-mixture gamma, flat index `i*M+c`) over every
phrase and time step. -/
def HMM.baumWelch_gammaSum (m : HMM) : HMM :=
  let ts := m.trainingSet.getD []
  let S := m.nbStates_
  let M := m.nbMixtureComponents_
  { m with
    gammaSum_ := fun i =>
      if i < S then
        ts.enum.foldl (fun (acc : Dbl) (pp : ℕ × Phrase) =>
          Dbl.sumFrom acc (fun t => m.gammaSequence_ pp.1 (t * S + i)) pp.2.length)
          (Dbl.fin 0)
      else m.gammaSum_ i
    gammaSumPerMixture_ := fun idx =>
      if idx < S * M then
        let i := idx / M
        let c := idx % M
        ts.enum.foldl (fun (acc : Dbl) (pp : ℕ × Phrase) =>
          Dbl.sumFrom acc (fun t => m.gammaSequencePerMixture_ pp.1 c (t * S + i)) pp.2.length)
          (Dbl.fin 0)
      else m.gammaSumPerMixture_ idx }

/-- HMM::baumWelch_estimateMixtureCoefficients (hmm.cpp 784-805):
accumulate per-mixture gamma over phrases and time into the (previously
zeroed) coefficients, then normalize per state. -/
def HMM.baumWelch_estimateMixtureCoefficients (m : HMM) : HMM :=
  let ts := m.trainingSet.getD []
  let S := m.nbStates_
  let M := m.nbMixtureComponents_
  let m1 := { m with
    states_ := fun i =>
      if i < S then
        { m.states_ i with
          mixtureCoeffs := fun c =>
            if c < M then
              ts.enum.foldl (fun (acc : Dbl) (pp : ℕ × Phrase) =>
                Dbl.sumFrom acc (fun t => m.gammaSequencePerMixture_ pp.1 c (t * S + i))
                  pp.2.length)
                ((m.states_ i).mixtureCoeffs c)
            else (m.states_ i).mixtureCoeffs c }
      else m.states_ i }
  { m1 with
    states_ := fun i =>
      if i < S then (m1.states_ i).normalizeMixtureCoeffs M else m1.states_ i }

/-- HMM::baumWelch_estimateMeans (hmm.cpp 808-843): for every phrase the
means are reset to zero and re-accumulated (so only the last phrase's
weighted sum survives, as in the source), then divided by the per-mixture
gamma sums where those are positive. -/
def HMM.baumWelch_estimateMeans (m : HMM) : HMM :=
  let ts := m.trainingSet.getD []
  let S := m.nbStates_
  let M := m.nbMixtureComponents_
  let dim := m.dimension_
  let m1 := { m with
    states_ := fun i =>
      if i < S then
        { m.states_ i with
          means := fun c d =>
            if c < M ∧ d < dim then
              ts.enum.foldl (fun (_acc : Dbl) (pp : ℕ × Phrase) =>
                Dbl.sumTo (fun t =>
                  (m.gammaSequencePerMixture_ pp.1 c (t * S + i)).mul
                    (Dbl.fin (pp.2.data t d))) pp.2.length)
                ((m.states_ i).means c d)
            else (m.states_ i).means c d }
      else m.states_ i }
  { m1 with
    states_ := fun i =>
      if i < S then
        { m1.states_ i with
          means := fun c d =>
            if c < M ∧ d < dim ∧
                (Dbl.fin 0).lt (m1.gammaSumPerMixture_ (i * M + c)) = true then
              ((m1.states_ i).means c d).div (m1.gammaSumPerMixture_ (i * M + c))
            else (m1.states_ i).means c d }
      else m1.states_ i }

/-- HMM::baumWelch_estimateCovariances (hmm.cpp 846-882): accumulate the
weighted outer products of centered observations over phrases and time
into the (previously zeroed) covariances, divide by the per-mixture gamma
sums where positive, then add the regularization offset and refresh the
inverse-covariance cache of every state. -/
def HMM.baumWelch_estimateCovariances (m : HMM) : HMM :=
  let ts := m.trainingSet.getD []
  let S := m.nbStates_
  let M := m.nbMixtureComponents_
  let dim := m.dimension_
  let m1 := { m with
    states_ := fun i =>
      if i < S then
        { m.states_ i with
          covariances := fun c idx =>
            if c < M ∧ idx < dim * dim then
              let d1 := idx / dim
              let d2 := idx % dim
              ts.enum.foldl (fun (acc : Dbl) (pp : ℕ × Phrase) =>
                Dbl.sumFrom acc (fun t =>
                  ((m.gammaSequencePerMixture_ pp.1 c (t * S + i)).mul
                    ((Dbl.fin (pp.2.data t d1)).sub ((m.states_ i).means c d1))).mul
                    ((Dbl.fin (pp.2.data t d2)).sub ((m.states_ i).means c d2)))
                  pp.2.length)
                ((m.states_ i).covariances c idx)
            else (m.states_ i).covariances c idx }
      else m.states_ i }
  let m2 := { m1 with
    states_ := fun i =>
      if i < S then
        { m1.states_ i with
          covariances := fun c idx =>
            if c < M ∧ idx < dim * dim ∧
                (Dbl.fin 0).lt (m1.gammaSumPerMixture_ (i * M + c)) = true then
              ((m1.states_ i).covariances c idx).div (m1.gammaSumPerMixture_ (i * M + c))
            else (m1.states_ i).covariances c idx }
      else m1.states_ i }
  { m2 with
    states_ := fun i =>
      if i < S then
        (((m2.states_ i).addCovarianceOffset m.covarianceOffset_ dim).updateInverseCovariances)
      else m2.states_ i }

/-- HMM::baumWelch_estimatePrior (hmm.cpp 885-910): zero the prior,
accumulate `gamma[0][i]` over the phrases, and divide by the total (a
zero total is only logged, the division still runs). -/
def HMM.baumWelch_estimatePrior (m : HMM) : HMM :=
  let ts := m.trainingSet.getD []
  let S := m.nbStates_
  let sumprior := ts.enum.foldl (fun (acc : Dbl) (pp : ℕ × Phrase) =>
    Dbl.sumFrom acc (fun i => m.gammaSequence_ pp.1 i) S) (Dbl.fin 0)
  { m with
    prior_ := fun i =>
      if i < S then
        (ts.enum.foldl (fun (acc : Dbl) (pp : ℕ × Phrase) => acc.add (m.gammaSequence_ pp.1 i)) (Dbl.fin 0)).div
          sumprior
      else m.prior_ i }

/-- HMM::baumWelch_estimateTransitions (hmm.cpp 913-943): zero the
matrix, accumulate epsilon over phrases and t < T-1, and divide row i by
`gammaSum_[i]` when that is positive (rows with non-positive gamma sum
keep the raw accumulation). -/
def HMM.baumWelch_estimateTransitions (m : HMM) : HMM :=
  let ts := m.trainingSet.getD []
  let S := m.nbStates_
  { m with
    transition_ := fun k =>
      if k < S * S then
        let i := k / S
        let raw := ts.enum.foldl (fun (acc : Dbl) (pp : ℕ × Phrase) =>
          Dbl.sumFrom acc (fun t => m.epsilonSequence_ pp.1 (t * S * S + k))
            (pp.2.length - 1)) (Dbl.fin 0)
        if (Dbl.fin 0).lt (m.gammaSum_ i) then raw.div (m.gammaSum_ i) else raw
      else m.transition_ k }

/-- Lines 635-638 of HMM::baumWelch_update: "set covariance and mixture
coefficients to zero for each state". -/
def HMM.bwZeroStates (m : HMM) : HMM :=
  { m with
    states_ := fun i =>
      if i < m.nbStates_ then (m.states_ i).setParametersToZero else m.states_ i }

/-- Lines 640-647 of HMM::baumWelch_update: mixture-coefficient /
(optional, `estimateMeans_`-controlled) mean / covariance re-estimation,
prior re-estimation only under the ergodic topology, and transition
re-estimation. -/
def HMM.bwTail (m4 : HMM) : HMM :=
  let m5 := if m4.estimateMeans_ then m4.baumWelch_estimateMeans else m4
  let m6 := m5.baumWelch_estimateCovariances
  let m7 := if m6.transitionMode_ = TRANSITION_MODE.ERGODIC then m6.baumWelch_estimatePrior
    else m6
  m7.baumWelch_estimateTransitions

/-- HMM::baumWelch_update (hmm.cpp 619-650, the body of
`train_EM_update`): forward-backward over every phrase, the gamma sums,
zeroed emission parameters, then the re-estimation tail (`bwTail`). -/
def HMM.baumWelch_update (obsP : ObsLik) (m : HMM) : HMM :=
  let ts := m.trainingSet.getD []
  let m1 := ts.enum.foldl (fun acc pp => HMM.baumWelch_forwardBackward obsP acc pp.2 pp.1) m
  let m2 := m1.baumWelch_gammaSum
  let m3 := m2.bwZeroStates
  let m4 := m3.baumWelch_estimateMixtureCoefficients
  m4.bwTail

/-
  ===================  Persistence (hmm.cpp lines 1055-1199)  ===================
-/

/-- A JSONNode document (libjson): named children in order, booleans,
numbers, arrays. -/
inductive JValue where
  | jbool : Bool → JValue
  | jnum : ℚ → JValue
  | jarray : List JValue → JValue
  | jnode : List (String × JValue) → JValue

/-- vector2json (json_utilities, not under src/): an array of the first
`n` values of a buffer. -/
def vector2json (f : ℕ → Dbl) (n : ℕ) : JValue :=
  JValue.jarray ((List.range n).map (fun i => JValue.jnum (f i).toRat))

/-- vector2json on the exit-probability list. -/
def list2json (l : List Dbl) : JValue :=
  JValue.jarray (l.map (fun x => JValue.jnum x.toRat))

/-- Modelled from the spec (§6): `GMM::to_json` (gmm.cpp, not under src/)
writes a nested emission-model document; the HMM round-trip claim only
needs it to carry the per-state parameters, encoded here as three flat
arrays. -/
def GMMState.to_json (g : GMMState) (nbMix dim : ℕ) : JValue :=
  JValue.jnode
    [("mixtureCoeffs", vector2json g.mixtureCoeffs nbMix),
     ("means", JValue.jarray ((List.range (nbMix * dim)).map (fun idx =>
        JValue.jnum ((g.means (idx / dim) (idx % dim)).toRat)))),
     ("covariances", JValue.jarray ((List.range (nbMix * (dim * dim))).map (fun idx =>
        JValue.jnum ((g.covariances (idx / (dim * dim)) (idx % (dim * dim))).toRat))))]

def jnumValD : JValue → ℚ
  | .jnum q => q
  | _ => 0

def jarrD : JValue → List JValue
  | .jarray l => l
  | _ => []

/-- Modelled from the spec (§6): `GMM::from_json` (gmm.cpp, not under
src/) reads the nested emission-model document written by
`GMMState.to_json`. -/
def GMMState.from_json (root : JValue) (dim : ℕ) : GMMState :=
  match root with
  | .jnode ((_, c) :: (_, me) :: (_, cv) :: _) =>
      { mixtureCoeffs := fun i => Dbl.fin (jnumValD ((jarrD c).getD i (JValue.jnum 0)))
        means := fun c2 d =>
          Dbl.fin (jnumValD ((jarrD me).getD (c2 * dim + d) (JValue.jnum 0)))
        covariances := fun c2 idx =>
          Dbl.fin (jnumValD ((jarrD cv).getD (c2 * (dim * dim) + idx) (JValue.jnum 0))) }
  | _ => GMMState.fresh

/-- Modelled from the spec (§1, §6): `EMBasedModel::to_json`
(em_based_model.cpp, not under src/) persists the EM base-model
lifecycle, which is out of the core's scope; `HMM::from_json` checks the
node only by name and type before delegating, so an empty node models
it. -/
def EMBasedModel_to_json (_m : HMM) : JValue := JValue.jnode []

/-- The value `int(transitionMode_)` as written by HMM::to_json (ERGODIC = 0,
LEFT_RIGHT = 1). -/
def transitionModeInt : TRANSITION_MODE → ℚ
  | .ERGODIC => 0
  | .LEFT_RIGHT => 1

/-- The C++ enum cast `TRANSITION_MODE(as_int)` in HMM::from_json: 0 is
ERGODIC, 1 is LEFT_RIGHT (other values are out-of-range enum casts and
fold to LEFT_RIGHT here). -/
def intToTransitionMode (n : ℤ) : TRANSITION_MODE :=
  if n = 0 then TRANSITION_MODE.ERGODIC else TRANSITION_MODE.LEFT_RIGHT

/-- The result of `as_int` on a JSON number, clamped to ℕ for a count field. -/
def ratToNat (q : ℚ) : ℕ := q.floor.toNat

/-- HMM::to_json (hmm.cpp 1055-1090): the parent node, the scalar
attributes, prior, transition, the exit probabilities ONLY when the model
is hierarchical, and the states array - in exactly this order. -/
def HMM.to_json (m : HMM) : JValue :=
  JValue.jnode
    ([("EMBasedModel", EMBasedModel_to_json m),
      ("is_hierarchical", JValue.jbool m.is_hierarchical_),
      ("estimateMeans", JValue.jbool m.estimateMeans_),
      ("dimension", JValue.jnum m.dimension_),
      ("nbStates", JValue.jnum m.nbStates_),
      ("nbMixtureComponents", JValue.jnum m.nbMixtureComponents_),
      ("covarianceOffset", JValue.jnum m.covarianceOffset_),
      ("transitionMode", JValue.jnum (transitionModeInt m.transitionMode_)),
      ("prior", vector2json m.prior_ m.nbStates_),
      ("transition", vector2json m.transition_ (m.nbStates_ * m.nbStates_))]
     ++ (if m.is_hierarchical_ then [("exitProbabilities", list2json m.exitProbabilities_)]
         else [])
     ++ [("states", JValue.jarray ((List.range m.nbStates_).map (fun i =>
            (m.states_ i).to_json m.nbMixtureComponents_ m.dimension_)))])

/-- One `assert(root_it != root.end()); assert(root_it->name() == nm)`
pair of HMM::from_json: take the next child, requiring its name.  The
source's `assert` aborts a debug build and leaves release builds reading
the wrong field; the spec (§7d) prescribes a structured parse error
identifying the offending field, which is how the check is modelled. -/
def expectField (kids : List (String × JValue)) (nm : String) :
    Except String (JValue × List (String × JValue)) :=
  match kids with
  | [] => Except.error ("Reached end of document while looking for " ++ nm)
  | (k, v) :: rest =>
      if k = nm then Except.ok (v, rest)
      else Except.error ("Wrong field name: expected " ++ nm ++ ", found " ++ k)

def asBool : JValue → Except String Bool
  | .jbool b => Except.ok b
  | _ => Except.error "Wrong type: expected JSON_BOOL"

def asNum : JValue → Except String ℚ
  | .jnum q => Except.ok q
  | _ => Except.error "Wrong type: expected JSON_NUMBER"

def asArray : JValue → Except String (List JValue)
  | .jarray l => Except.ok l
  | _ => Except.error "Wrong type: expected JSON_ARRAY"

def asNode : JValue → Except String (List (String × JValue))
  | .jnode kids => Except.ok kids
  | _ => Except.error "Wrong type: expected JSON_NODE"

/-- json2vector (json_utilities, not under src/): copy `n` numbers of a
JSON array into a function buffer. -/
def json2vectorFun (arr : List JValue) (old : ℕ → Dbl) (n : ℕ) : ℕ → Dbl :=
  fun i => if i < n then Dbl.fin (jnumValD (arr.getD i (JValue.jnum 0))) else old i

/-- json2vector into the exit-probability list (resized to `n`). -/
def json2vectorList (arr : List JValue) (n : ℕ) : List Dbl :=
  (List.range n).map (fun i => Dbl.fin (jnumValD (arr.getD i (JValue.jnum 0))))

/-- HMM::from_json (hmm.cpp 1093-1199): sequential field checks in the
fixed order EMBasedModel, is_hierarchical (with the explicit
hierarchical-mismatch throw), estimateMeans, dimension, nbStates,
nbMixtureComponents, covarianceOffset, transitionMode, then
`allocate()`, then prior, transition, exitProbabilities
(UNCONDITIONALLY - even for a non-hierarchical model), states; on
success `trained = true`.  `EMBasedModel::from_json` (not under src/)
restores base-model state only and is modelled as accepting its node. -/
def HMM.from_json (m : HMM) (root : JValue) : Except String HMM := do
  let kids ← asNode root
  let (em, r1) ← expectField kids "EMBasedModel"
  let _ ← asNode em
  let (hv, r2) ← expectField r1 "is_hierarchical"
  let hb ← asBool hv
  if m.is_hierarchical_ ≠ hb then
    if m.is_hierarchical_ then
      throw "Trying to read a non-hierarchical model in a hierarchical model."
    else
      throw "Trying to read a hierarchical model in a non-hierarchical model."
  let (ev, r3) ← expectField r2 "estimateMeans"
  let eb ← asBool ev
  let (dv, r4) ← expectField r3 "dimension"
  let dq ← asNum dv
  let (sv, r5) ← expectField r4 "nbStates"
  let sq ← asNum sv
  let (mv, r6) ← expectField r5 "nbMixtureComponents"
  let mq ← asNum mv
  let (cv, r7) ← expectField r6 "covarianceOffset"
  let cq ← asNum cv
  let (tv, r8) ← expectField r7 "transitionMode"
  let tq ← asNum tv
  let m1 := { m with
    estimateMeans_ := eb
    dimension_ := ratToNat dq
    nbStates_ := ratToNat sq
    nbMixtureComponents_ := ratToNat mq
    covarianceOffset_ := cq
    transitionMode_ := intToTransitionMode tq.floor }
  let m2 := m1.allocate
  let S := m2.nbStates_
  let (pv, r9) ← expectField r8 "prior"
  let pa ← asArray pv
  let m3 := { m2 with prior_ := json2vectorFun pa m2.prior_ S }
  let (trv, r10) ← expectField r9 "transition"
  let ta ← asArray trv
  let m4 := { m3 with transition_ := json2vectorFun ta m3.transition_ (S * S) }
  let (xv, r11) ← expectField r10 "exitProbabilities"
  let xa ← asArray xv
  let m5 := { m4 with exitProbabilities_ := json2vectorList xa S }
  let (stv, _) ← expectField r11 "states"
  let sa ← asArray stv
  let m6 := { m5 with
    states_ := fun i =>
      if i < S then GMMState.from_json (sa.getD i (JValue.jnode [])) m5.dimension_
      else m5.states_ i }
  return { m6 with trained := true }

/-
  ===================  Concrete fixtures  ===================
-/

/-- A hierarchical 2-state model (HIERARCHICAL construction bit clear). -/
def mH2 : HMM := HMM.hmm_new { hierarchical := false, bimodal := false } none 2 1

/-- A non-hierarchical (flat) 2-state model (HIERARCHICAL bit set). -/
def mF2 : HMM := HMM.hmm_new { hierarchical := true, bimodal := false } none 2 1

/-- A non-hierarchical 1-state model used for the serialization
round-trip counterexample. -/
def c1flat : HMM := HMM.hmm_new { hierarchical := true, bimodal := false } none 1 1

/-- A hierarchical 2-state model used for the hierarchical round-trip. -/
def c1hier : HMM := HMM.hmm_new { hierarchical := false, bimodal := false } none 2 1

/-- A model state with every field at its zero value: the template of
the hand-written fixtures below. -/
def hmmZero : HMM :=
  { flags_ := { hierarchical := false, bimodal := false }
    bimodal_ := false
    is_hierarchical_ := true
    dimension_ := 1
    trainingSet := none
    nbStates_ := 1
    nbMixtureComponents_ := 1
    covarianceOffset_ := GAUSSIAN_DEFAULT_COVARIANCE_OFFSET
    transitionMode_ := TRANSITION_MODE.LEFT_RIGHT
    estimateMeans_ := true
    prior_ := fun _ => Dbl.fin 0
    transition_ := fun _ => Dbl.fin 0
    alpha := fun _ => Dbl.fin 0
    previousAlpha_ := fun _ => Dbl.fin 0
    beta_ := fun _ => Dbl.fin 0
    previousBeta_ := fun _ => Dbl.fin 0
    exitProbabilities_ := []
    states_ := fun _ => GMMState.fresh
    trained := false
    forwardInitialized_ := false
    gammaSequence_ := fun _ _ => Dbl.fin 0
    epsilonSequence_ := fun _ _ => Dbl.fin 0
    gammaSequencePerMixture_ := fun _ _ _ => Dbl.fin 0
    alpha_seq_ := fun _ => Dbl.fin 0
    beta_seq_ := fun _ => Dbl.fin 0
    gammaSum_ := fun _ => Dbl.fin 0
    gammaSumPerMixture_ := fun _ => Dbl.fin 0 }

/-- The prior of the zero-row fixture: `[1, 1]`. -/
def gC3 : ℕ → ℚ := fun _ => 1

/-- The transition entries of the zero-row fixture: row 0 is `[0, 0]`
(sum exactly 0), row 1 is `[1, 1]`. -/
def trC3 : ℕ → ℕ → ℚ := fun i _ => if i = 0 then 0 else 1

/-- A 2-state model whose transition row 0 sums to exactly 0 (row 1 and
the prior are well-formed): the input of the C3 counterexample. -/
def c3model : HMM :=
  { hmmZero with
    nbStates_ := 2
    prior_ := fun i => Dbl.fin (gC3 i)
    transition_ := fun k => Dbl.fin (trC3 (k / 2) (k % 2)) }

/-- The prior entries of the C4 witness fixture: one-hot at 0. -/
def gW4 : ℕ → ℚ := fun i => if i = 0 then 1 else 0

/-- The transition entries of the C4 witness fixture: `[1/2, 1/2]` and
`[0, 1]`. -/
def trW4 : ℕ → ℕ → ℚ := fun i j => if i = 0 then 1 / 2 else if j = 1 then 1 else 0

/-- A 2-state model with a one-hot prior and left-right transitions: the
C4 witness input. -/
def mW4 : HMM :=
  { hmmZero with
    nbStates_ := 2
    prior_ := fun i => Dbl.fin (gW4 i)
    transition_ := fun k => Dbl.fin (trW4 (k / 2) (k % 2)) }

/-- An emission-likelihood collaborator that assigns likelihood 1
everywhere (used to instantiate universally quantified theorems). -/
def obsOne : ObsLik := fun _ _ _ => Dbl.fin 1

/-- A 3-state left-right model with one training phrase, for the C9
witness. -/
def mT3 : HMM :=
  HMM.hmm_new { hierarchical := false, bimodal := false }
    (some [{ length := 2, data := fun _ _ => 0 }]) 3 1

/-- The left-right transition matrix entry produced by
`HMM::setLeftRight`: 1 on the final self-loop `(S-1, S-1)`, 0.5 on the
self and next transitions of every other state, 0 elsewhere. -/
def lrEntry (S i j : ℕ) : ℚ :=
  if i = S - 1 ∧ j = S - 1 then 1
  else if i = j ∨ i + 1 = j then 1 / 2
  else 0

/-- A 2-state model with one-hot prior AND one-hot current alpha (the
C6/C7 witness input). -/
def mW7 : HMM :=
  { hmmZero with
    nbStates_ := 2
    prior_ := fun i => Dbl.fin (gW4 i)
    alpha := fun i => Dbl.fin (gW4 i)
    transition_ := fun k => Dbl.fin (trW4 (k / 2) (k % 2)) }

/-- The all-zero emission likelihood (a degenerate observation). -/
def bZero : ℕ → Dbl := fun _ => Dbl.fin 0

/-- The all-one emission likelihood. -/
def bOne : ℕ → Dbl := fun _ => Dbl.fin 1

/-
  ===================  Theorems  ===================
-/

theorem Dbl.add_fin (a b : ℚ) : (Dbl.fin a).add (Dbl.fin b) = Dbl.fin (a + b) := rfl

theorem Dbl.mul_fin (a b : ℚ) : (Dbl.fin a).mul (Dbl.fin b) = Dbl.fin (a * b) := rfl

theorem Dbl.div_fin (a : ℚ) {b : ℚ} (hb : b ≠ 0) :
    (Dbl.fin a).div (Dbl.fin b) = Dbl.fin (a / b) := by
  simp [Dbl.div, hb]

theorem Dbl.div_fin_zero {a : ℚ} (ha : a = 0) :
    (Dbl.fin a).div (Dbl.fin 0) = Dbl.nan := by
  simp [Dbl.div, ha]

theorem Dbl.lt_fin (a b : ℚ) : (Dbl.fin a).lt (Dbl.fin b) = decide (a < b) := rfl

theorem Dbl.isFinite_fin (a : ℚ) : (Dbl.fin a).isFinite = true := rfl

/-- If `f` agrees with `g` below `n`, the accumulated sums agree. -/
theorem Dbl.sumTo_congr {f g : ℕ → Dbl} {n : ℕ} (h : ∀ i, i < n → f i = g i) :
    Dbl.sumTo f n = Dbl.sumTo g n := by
  induction n with
  | zero => rfl
  | succ k ih =>
      simp only [Dbl.sumTo]
      rw [ih (fun i hi => h i (Nat.lt_succ_of_lt hi)), h k (Nat.lt_succ_self k)]

/-- Accumulating finite values is the exact rational sum. -/
theorem Dbl.sumTo_fin {f : ℕ → Dbl} {g : ℕ → ℚ} {n : ℕ}
    (h : ∀ i, i < n → f i = Dbl.fin (g i)) :
    Dbl.sumTo f n = Dbl.fin ((Finset.range n).sum g) := by
  induction n with
  | zero => simp [Dbl.sumTo]
  | succ k ih =>
      simp only [Dbl.sumTo]
      rw [ih (fun i hi => h i (Nat.lt_succ_of_lt hi)), h k (Nat.lt_succ_self k),
        Dbl.add_fin, Finset.sum_range_succ]

/-
  ===================  Flat-index arithmetic  ===================
-/

theorem flatIdx_lt {S i j : ℕ} (hi : i < S) (hj : j < S) : i * S + j < S * S := by
  calc i * S + j < i * S + S := by omega
    _ = (i + 1) * S := by ring
    _ ≤ S * S := Nat.mul_le_mul_right _ (by omega)

theorem flatIdx_div {S i j : ℕ} (hj : j < S) : (i * S + j) / S = i := by
  rw [Nat.add_comm, Nat.add_mul_div_right _ _ (by omega : 0 < S), Nat.div_eq_of_lt hj,
    Nat.zero_add]

theorem flatIdx_mod {S i j : ℕ} (hj : j < S) : (i * S + j) % S = j := by
  rw [Nat.add_comm, Nat.add_mul_mod_self_right, Nat.mod_eq_of_lt hj]

/-- The final flat entry `S*S-1` corresponds exactly to the cell
`(S-1, S-1)` of the transition matrix. -/
theorem flat_eq_last_iff {S i j : ℕ} (hS : 1 ≤ S) (hi : i < S) (hj : j < S) :
    i * S + j = S * S - 1 ↔ i = S - 1 ∧ j = S - 1 := by
  obtain ⟨s, rfl⟩ : ∃ s, S = s + 1 := ⟨S - 1, by omega⟩
  have e : (s + 1) * (s + 1) = s * (s + 1) + (s + 1) := by ring
  constructor
  · intro h
    rcases Nat.lt_or_ge i s with hlt | hge
    · have hmono : i * (s + 1) + (s + 1) ≤ s * (s + 1) := by
        have := Nat.mul_le_mul_right (s + 1) (Nat.succ_le_of_lt hlt)
        simpa [Nat.succ_mul] using this
      omega
    · have his : i = s := by omega
      subst his
      omega
  · rintro ⟨h1, h2⟩
    have his : i = s := by omega
    have hjs : j = s := by omega
    subst his; subst hjs
    omega

/-
  ===================  C4: normalize makes simplices  ===================
-/

theorem normalizeTransitions_nbStates (m : HMM) :
    (m.normalizeTransitions).nbStates_ = m.nbStates_ := rfl

/-- After `normalizeTransitions`, a prior with finite entries and positive
sum sums to exactly 1. -/
theorem normalize_prior_sum (m : HMM) (g : ℕ → ℚ)
    (hp : ∀ i, i < m.nbStates_ → m.prior_ i = Dbl.fin (g i))
    (hpos : 0 < (Finset.range m.nbStates_).sum g) :
    Dbl.sumTo (m.normalizeTransitions).prior_ m.nbStates_ = Dbl.fin 1 := by
  have hC : (Finset.range m.nbStates_).sum g ≠ 0 := ne_of_gt hpos
  have hnorm : Dbl.sumTo m.prior_ m.nbStates_ = Dbl.fin ((Finset.range m.nbStates_).sum g) :=
    Dbl.sumTo_fin hp
  have hnew : ∀ i, i < m.nbStates_ →
      (m.normalizeTransitions).prior_ i = Dbl.fin (g i / (Finset.range m.nbStates_).sum g) := by
    intro i hi
    simp only [HMM.normalizeTransitions, if_pos hi]
    rw [hnorm, hp i hi, Dbl.div_fin _ hC]
  rw [Dbl.sumTo_fin hnew, ← Finset.sum_div, div_self hC]

/-- After `normalizeTransitions`, a row with finite entries and positive
sum sums to exactly 1. -/
theorem normalize_row_sum (m : HMM) (i : ℕ) (hi : i < m.nbStates_) (tr : ℕ → ℚ)
    (ht : ∀ j, j < m.nbStates_ → m.transition_ (i * m.nbStates_ + j) = Dbl.fin (tr j))
    (hpos : 0 < (Finset.range m.nbStates_).sum tr) :
    Dbl.sumTo (fun j => (m.normalizeTransitions).transition_ (i * m.nbStates_ + j))
      m.nbStates_ = Dbl.fin 1 := by
  have hC : (Finset.range m.nbStates_).sum tr ≠ 0 := ne_of_gt hpos
  have hrow : Dbl.sumTo (fun j => m.transition_ (i * m.nbStates_ + j)) m.nbStates_
      = Dbl.fin ((Finset.range m.nbStates_).sum tr) := Dbl.sumTo_fin (fun j hj => ht j hj)
  have hnew : ∀ j, j < m.nbStates_ →
      (m.normalizeTransitions).transition_ (i * m.nbStates_ + j)
        = Dbl.fin (tr j / (Finset.range m.nbStates_).sum tr) := by
    intro j hj
    simp only [HMM.normalizeTransitions, if_pos (flatIdx_lt hi hj)]
    rw [flatIdx_div hj, hrow, ht j hj, Dbl.div_fin _ hC]
  rw [Dbl.sumTo_fin hnew, ← Finset.sum_div, div_self hC]

/-- C4: for every model whose prior and every transition row have finite
entries with a positive sum, after `normalizeTransitions` the prior sums
to 1 and every transition row sums to 1 (exactly, in this
rounding-free model of doubles). -/
theorem hmm_normalize_makes_simplices (m : HMM) (g : ℕ → ℚ) (tr : ℕ → ℕ → ℚ)
    (hp : ∀ i, i < m.nbStates_ → m.prior_ i = Dbl.fin (g i))
    (ht : ∀ i, i < m.nbStates_ → ∀ j, j < m.nbStates_ →
      m.transition_ (i * m.nbStates_ + j) = Dbl.fin (tr i j))
    (hgpos : 0 < (Finset.range m.nbStates_).sum g)
    (htpos : ∀ i, i < m.nbStates_ → 0 < (Finset.range m.nbStates_).sum (tr i)) :
    Dbl.sumTo (m.normalizeTransitions).prior_ m.nbStates_ = Dbl.fin 1 ∧
    ∀ i, i < m.nbStates_ →
      Dbl.sumTo (fun j => (m.normalizeTransitions).transition_ (i * m.nbStates_ + j))
        m.nbStates_ = Dbl.fin 1 := by
  refine ⟨normalize_prior_sum m g hp hgpos, fun i hi => ?_⟩
  exact normalize_row_sum m i hi (tr i) (fun j hj => ht i hi j hj) (htpos i hi)

/-
  ===================  Theorems  ===================
-/

theorem setLeftRight_keeps (m : HMM) :
    (m.setLeftRight).nbStates_ = m.nbStates_ ∧
    (m.setLeftRight).is_hierarchical_ = m.is_hierarchical_ ∧
    (m.setLeftRight).transitionMode_ = m.transitionMode_ ∧
    (m.setLeftRight).trainingSet = m.trainingSet ∧
    (m.setLeftRight).exitProbabilities_ = m.exitProbabilities_ :=
  ⟨rfl, rfl, rfl, rfl, rfl⟩

theorem setErgodic_keeps (m : HMM) :
    (m.setErgodic).nbStates_ = m.nbStates_ ∧
    (m.setErgodic).is_hierarchical_ = m.is_hierarchical_ ∧
    (m.setErgodic).exitProbabilities_ = m.exitProbabilities_ :=
  ⟨rfl, rfl, rfl⟩

theorem initMeansFP_keeps (m : HMM) :
    (m.initMeansWithFirstPhrase).prior_ = m.prior_ ∧
    (m.initMeansWithFirstPhrase).is_hierarchical_ = m.is_hierarchical_ ∧
    (m.initMeansWithFirstPhrase).exitProbabilities_ = m.exitProbabilities_ ∧
    (m.initMeansWithFirstPhrase).nbStates_ = m.nbStates_ := by
  unfold HMM.initMeansWithFirstPhrase
  rcases m.trainingSet with _ | ts
  · exact ⟨rfl, rfl, rfl, rfl⟩
  · by_cases h : ts.isEmpty <;> simp [h]

theorem initCovSingle_keeps (m : HMM) :
    (m.initCovariancesWithAllPhrases_single).prior_ = m.prior_ ∧
    (m.initCovariancesWithAllPhrases_single).is_hierarchical_ = m.is_hierarchical_ ∧
    (m.initCovariancesWithAllPhrases_single).exitProbabilities_ = m.exitProbabilities_ ∧
    (m.initCovariancesWithAllPhrases_single).nbStates_ = m.nbStates_ := by
  unfold HMM.initCovariancesWithAllPhrases_single
  rcases m.trainingSet with _ | ts
  · exact ⟨rfl, rfl, rfl, rfl⟩
  · by_cases h : ts.isEmpty <;> simp [h]

theorem initMeansMix_keeps (m : HMM) :
    (m.initMeansWithAllPhrases_mixture).prior_ = m.prior_ ∧
    (m.initMeansWithAllPhrases_mixture).is_hierarchical_ = m.is_hierarchical_ ∧
    (m.initMeansWithAllPhrases_mixture).exitProbabilities_ = m.exitProbabilities_ ∧
    (m.initMeansWithAllPhrases_mixture).nbStates_ = m.nbStates_ := by
  unfold HMM.initMeansWithAllPhrases_mixture
  rcases m.trainingSet with _ | ts
  · exact ⟨rfl, rfl, rfl, rfl⟩
  · by_cases h : ts.isEmpty <;> simp [h]

theorem initCovMix_keeps (m : HMM) :
    (m.initCovariancesWithAllPhrases_mixture).prior_ = m.prior_ ∧
    (m.initCovariancesWithAllPhrases_mixture).is_hierarchical_ = m.is_hierarchical_ ∧
    (m.initCovariancesWithAllPhrases_mixture).exitProbabilities_ = m.exitProbabilities_ ∧
    (m.initCovariancesWithAllPhrases_mixture).nbStates_ = m.nbStates_ := by
  unfold HMM.initCovariancesWithAllPhrases_mixture
  rcases m.trainingSet with _ | ts
  · exact ⟨rfl, rfl, rfl, rfl⟩
  · by_cases h : ts.isEmpty <;> simp [h]
theorem setErgodic_trainingSet (m : HMM) : (m.setErgodic).trainingSet = m.trainingSet := rfl

theorem setLeftRight_trainingSet (m : HMM) : (m.setLeftRight).trainingSet = m.trainingSet := rfl

theorem setErgodic_nbMix (m : HMM) :
    (m.setErgodic).nbMixtureComponents_ = m.nbMixtureComponents_ := rfl

theorem setLeftRight_nbMix (m : HMM) :
    (m.setLeftRight).nbMixtureComponents_ = m.nbMixtureComponents_ := rfl

theorem initTraining_keeps (m : HMM) :
    (m.initTraining).is_hierarchical_ = m.is_hierarchical_ ∧
    (m.initTraining).exitProbabilities_ = m.exitProbabilities_ ∧
    (m.initTraining).nbStates_ = m.nbStates_ := by
  unfold HMM.initTraining
  rcases hmode : m.transitionMode_ <;>
    simp only [hmode, reduceCtorEq, if_true, if_false, reduceIte, setErgodic_trainingSet,
      setLeftRight_trainingSet, setErgodic_nbMix, setLeftRight_nbMix] <;>
    rcases hts : m.trainingSet with _ | ts <;>
    by_cases hmix : 1 < m.nbMixtureComponents_ <;>
    simp [hmix, initCovMix_keeps, initMeansMix_keeps, initCovSingle_keeps, initMeansFP_keeps,
      setErgodic_keeps, setLeftRight_keeps]

theorem allocate_keeps (m : HMM) :
    (m.allocate).is_hierarchical_ = m.is_hierarchical_ ∧
    (m.allocate).nbStates_ = m.nbStates_ ∧
    (m.allocate).trainingSet = m.trainingSet ∧
    (m.allocate).transitionMode_ = m.transitionMode_ := by
  unfold HMM.allocate
  by_cases h : m.is_hierarchical_ <;> simp [h]

theorem allocate_exit_hier (m : HMM) (h : m.is_hierarchical_ = true) :
    (m.allocate).exitProbabilities_ = exitProbsDefault m.exitProbabilities_ m.nbStates_ := by
  unfold HMM.allocate
  simp [h]

theorem allocate_exit_flat (m : HMM) (h : m.is_hierarchical_ = false) :
    (m.allocate).exitProbabilities_ = m.exitProbabilities_ := by
  unfold HMM.allocate
  simp [h]

/-- C10: a model constructed with the HIERARCHICAL bit set in the
construction flags has `is_hierarchical_ = false` (it behaves as a flat
model: its exit-probability vector stays unallocated and
`updateExitProbabilities` throws), while a model constructed without the
bit has `is_hierarchical_ = true` and its exit probabilities allocated to
the default distribution (all exit mass on the last state): the
flag-to-mode mapping is inverted relative to the flag's name. -/
theorem hmm_constructor_flag_inverted (flags : RtmlFlags) (ts : Option (List Phrase))
    (nbStates nbMix : ℕ) (hS : 1 ≤ nbStates) :
    (HMM.hmm_new flags ts nbStates nbMix).is_hierarchical_ = !flags.hierarchical ∧
    (flags.hierarchical = true →
      (HMM.hmm_new flags ts nbStates nbMix).exitProbabilities_ = [] ∧
      (∃ e, (HMM.hmm_new flags ts nbStates nbMix).updateExitProbabilities none
        = Except.error e)) ∧
    (flags.hierarchical = false →
      (HMM.hmm_new flags ts nbStates nbMix).exitProbabilities_
        = (List.replicate nbStates (Dbl.fin 0)).set (nbStates - 1)
            (Dbl.fin HMM_DEFAULT_EXITPROBABILITY_LAST_STATE)) := by
  have hhier : (HMM.hmm_new flags ts nbStates nbMix).is_hierarchical_ = !flags.hierarchical := by
    unfold HMM.hmm_new
    rw [(initTraining_keeps _).1, (allocate_keeps _).1]
  refine ⟨hhier, fun hf => ⟨?_, ?_⟩, fun hf => ?_⟩
  · unfold HMM.hmm_new
    rw [(initTraining_keeps _).2.1, allocate_exit_flat _ (by simp [hf])]
  · refine ⟨"Model is Not hierarchical: method cannot be used", ?_⟩
    unfold HMM.updateExitProbabilities
    rw [if_pos (by rw [hhier, hf] ; rfl)]
  · unfold HMM.hmm_new
    rw [(initTraining_keeps _).2.1, allocate_exit_hier _ (by simp [hf])]
    simp [exitProbsDefault, listResize]

/-- C10 witness: the theorem applied to the flag with the HIERARCHICAL
bit set, no training set and 2 states. -/
theorem hmm_constructor_flag_inverted_witness :
    (1 ≤ 2 ∧
      (HMM.hmm_new { hierarchical := true, bimodal := false } none 2 1).is_hierarchical_
        = !true) ∧
    ((HMM.hmm_new { hierarchical := true, bimodal := false } none 2 1).exitProbabilities_ = []
      ∧ ∃ e, (HMM.hmm_new { hierarchical := true, bimodal := false } none 2
          1).updateExitProbabilities none = Except.error e) :=
  ⟨⟨by decide,
      (hmm_constructor_flag_inverted { hierarchical := true, bimodal := false } none 2 1
        (by decide)).1⟩,
    (hmm_constructor_flag_inverted { hierarchical := true, bimodal := false } none 2 1
        (by decide)).2.1 rfl⟩

/-- C2: `updateExitProbabilities` and (for an in-range state index)
`addExitPoint` raise a synchronous error if and only if the model is
non-hierarchical; on a hierarchical model with an in-range index both
complete without error. -/
theorem hmm_exit_api_error_iff_nonhierarchical (m : HMM) (ep : Option (ℕ → ℚ))
    (stateIndex : ℕ) (proba : ℚ) (hidx : stateIndex < m.nbStates_) :
    ((∃ e, m.updateExitProbabilities ep = Except.error e) ↔ m.is_hierarchical_ = false) ∧
    ((∃ e, m.addExitPoint stateIndex proba = Except.error e) ↔ m.is_hierarchical_ = false) := by
  unfold HMM.updateExitProbabilities HMM.addExitPoint
  cases hh : m.is_hierarchical_
  · rcases ep with _ | arr <;> simp
  · rcases ep with _ | arr <;> simp [Nat.not_le.mpr hidx]

/-- C2 witness: on the flat model `mF2` both calls error; the index 0 is
in range. -/
theorem hmm_exit_api_error_iff_nonhierarchical_witness :
    (0 < mF2.nbStates_) ∧
    ((∃ e, mF2.updateExitProbabilities none = Except.error e) ↔ mF2.is_hierarchical_ = false) ∧
    ((∃ e, mF2.addExitPoint 0 (1 / 2) = Except.error e) ↔ mF2.is_hierarchical_ = false) :=
  ⟨by decide,
    (hmm_exit_api_error_iff_nonhierarchical mF2 none 0 (1 / 2) (by decide)).1,
    (hmm_exit_api_error_iff_nonhierarchical mF2 none 0 (1 / 2) (by decide)).2⟩

/-- A zero transition row is turned into NaN entries by
`normalizeTransitions` (each entry becomes `0.0/0.0`). -/
theorem normalize_zero_row_nan (m : HMM) (r : ℕ) (hr : r < m.nbStates_)
    (hz : ∀ j, j < m.nbStates_ → m.transition_ (r * m.nbStates_ + j) = Dbl.fin 0) :
    ∀ j, j < m.nbStates_ →
      (m.normalizeTransitions).transition_ (r * m.nbStates_ + j) = Dbl.nan := by
  intro j hj
  have hrow : Dbl.sumTo (fun j2 => m.transition_ (r * m.nbStates_ + j2)) m.nbStates_
      = Dbl.fin ((Finset.range m.nbStates_).sum (fun _ => (0:ℚ))) :=
    Dbl.sumTo_fin (fun j2 hj2 => hz j2 hj2)
  simp only [Finset.sum_const, smul_zero] at hrow
  simp only [HMM.normalizeTransitions, if_pos (flatIdx_lt hr hj)]
  rw [flatIdx_div hj, hrow, hz j hj, Dbl.div_fin_zero rfl]

/-- C3 counterexample: on `c3model` (2 states, transition row 0 sums to
exactly 0) `normalizeTransitions` does NOT leave the zero row's entries
at 0: the IEEE division `0.0/0.0` turns them into NaN. -/
theorem hmm_normalize_zero_row_counterexample :
    Dbl.sumTo (fun j => c3model.transition_ (0 * c3model.nbStates_ + j)) c3model.nbStates_
      = Dbl.fin 0 ∧
    (c3model.normalizeTransitions).transition_ (0 * c3model.nbStates_ + 0) = Dbl.nan ∧
    ¬ (c3model.normalizeTransitions).transition_ (0 * c3model.nbStates_ + 0) = Dbl.fin 0 := by
  have hz : ∀ j, j < c3model.nbStates_ →
      c3model.transition_ (0 * c3model.nbStates_ + j) = Dbl.fin 0 := by
    intro j hj
    have hj2 : j < 2 := hj
    have e : c3model.transition_ (0 * c3model.nbStates_ + j)
        = Dbl.fin (trC3 ((0 * 2 + j) / 2) ((0 * 2 + j) % 2)) := rfl
    rw [e, flatIdx_div hj2, flatIdx_mod hj2]
    rfl
  have hnan := normalize_zero_row_nan c3model 0 (by decide) hz 0 (by decide)
  refine ⟨?_, hnan, by rw [hnan] ; exact fun h => by cases h⟩
  rw [Dbl.sumTo_fin (g := fun _ => (0:ℚ)) hz]
  simp

/-- C3 (amended): if a transition row's sum is exactly 0 (a row of
zeros), `normalizeTransitions` completes without raising an error, but
the zero row's entries become NaN (the row is divided by its zero sum,
`0.0/0.0`) instead of remaining 0; the other rows (finite entries,
positive row sums) and the prior are still normalized to sum to 1. -/
theorem hmm_normalize_zero_row_amended (m : HMM) (r : ℕ) (hr : r < m.nbStates_)
    (hz : ∀ j, j < m.nbStates_ → m.transition_ (r * m.nbStates_ + j) = Dbl.fin 0)
    (g : ℕ → ℚ) (tr : ℕ → ℕ → ℚ)
    (hp : ∀ i, i < m.nbStates_ → m.prior_ i = Dbl.fin (g i))
    (ht : ∀ i, i < m.nbStates_ → i ≠ r → ∀ j, j < m.nbStates_ →
      m.transition_ (i * m.nbStates_ + j) = Dbl.fin (tr i j))
    (hgpos : 0 < (Finset.range m.nbStates_).sum g)
    (htpos : ∀ i, i < m.nbStates_ → i ≠ r → 0 < (Finset.range m.nbStates_).sum (tr i)) :
    (∀ j, j < m.nbStates_ →
      (m.normalizeTransitions).transition_ (r * m.nbStates_ + j) = Dbl.nan) ∧
    (∀ i, i < m.nbStates_ → i ≠ r →
      Dbl.sumTo (fun j => (m.normalizeTransitions).transition_ (i * m.nbStates_ + j))
        m.nbStates_ = Dbl.fin 1) ∧
    Dbl.sumTo (m.normalizeTransitions).prior_ m.nbStates_ = Dbl.fin 1 := by
  refine ⟨normalize_zero_row_nan m r hr hz, fun i hi hir => ?_,
    normalize_prior_sum m g hp hgpos⟩
  exact normalize_row_sum m i hi (tr i) (fun j hj => ht i hi hir j hj) (htpos i hi hir)

/-- C3 witness: the amended theorem applied to `c3model` (row 0 is the
zero row, row 1 is [1,1], the prior is [1,1]). -/
theorem hmm_normalize_zero_row_amended_witness :
    ((0 < c3model.nbStates_) ∧
     (∀ j, j < c3model.nbStates_ →
        c3model.transition_ (0 * c3model.nbStates_ + j) = Dbl.fin 0) ∧
     0 < (Finset.range c3model.nbStates_).sum gC3) ∧
    ((∀ j, j < c3model.nbStates_ →
        (c3model.normalizeTransitions).transition_ (0 * c3model.nbStates_ + j) = Dbl.nan) ∧
     (∀ i, i < c3model.nbStates_ → i ≠ 0 →
        Dbl.sumTo (fun j => (c3model.normalizeTransitions).transition_
          (i * c3model.nbStates_ + j)) c3model.nbStates_ = Dbl.fin 1) ∧
     Dbl.sumTo (c3model.normalizeTransitions).prior_ c3model.nbStates_ = Dbl.fin 1) := by
  have hz : ∀ j, j < c3model.nbStates_ →
      c3model.transition_ (0 * c3model.nbStates_ + j) = Dbl.fin 0 := by
    intro j hj
    have hj2 : j < 2 := hj
    have e : c3model.transition_ (0 * c3model.nbStates_ + j)
        = Dbl.fin (trC3 ((0 * 2 + j) / 2) ((0 * 2 + j) % 2)) := rfl
    rw [e, flatIdx_div hj2, flatIdx_mod hj2]
    rfl
  have ht : ∀ i, i < c3model.nbStates_ → i ≠ 0 → ∀ j, j < c3model.nbStates_ →
      c3model.transition_ (i * c3model.nbStates_ + j) = Dbl.fin (trC3 i j) := by
    intro i hi hir j hj
    have hj2 : j < 2 := hj
    have e : c3model.transition_ (i * c3model.nbStates_ + j)
        = Dbl.fin (trC3 ((i * 2 + j) / 2) ((i * 2 + j) % 2)) := rfl
    rw [e, flatIdx_div hj2, flatIdx_mod hj2]
  have hgpos : 0 < (Finset.range c3model.nbStates_).sum gC3 := by
    show 0 < (Finset.range 2).sum gC3
    norm_num [gC3, Finset.sum_range_succ]
  have htpos : ∀ i, i < c3model.nbStates_ → i ≠ 0 →
      0 < (Finset.range c3model.nbStates_).sum (trC3 i) := by
    intro i hi hir
    have : i = 1 := by
      have h2 : i < 2 := hi
      omega
    subst this
    show 0 < (Finset.range 2).sum (trC3 1)
    norm_num [trC3, Finset.sum_range_succ]
  exact ⟨⟨by decide, hz, hgpos⟩,
    hmm_normalize_zero_row_amended c3model 0 (by decide) hz gC3 trC3 (fun i _ => rfl) ht
      hgpos htpos⟩

/-- C4 witness: the normalization theorem applied to `mW4` (one-hot
prior, rows [1/2, 1/2] and [0, 1]). -/
theorem hmm_normalize_makes_simplices_witness :
    ((∀ i, i < mW4.nbStates_ → mW4.prior_ i = Dbl.fin (gW4 i)) ∧
     0 < (Finset.range mW4.nbStates_).sum gW4 ∧
     (∀ i, i < mW4.nbStates_ → 0 < (Finset.range mW4.nbStates_).sum (trW4 i))) ∧
    (Dbl.sumTo (mW4.normalizeTransitions).prior_ mW4.nbStates_ = Dbl.fin 1 ∧
     ∀ i, i < mW4.nbStates_ →
       Dbl.sumTo (fun j => (mW4.normalizeTransitions).transition_ (i * mW4.nbStates_ + j))
         mW4.nbStates_ = Dbl.fin 1) := by
  have ht : ∀ i, i < mW4.nbStates_ → ∀ j, j < mW4.nbStates_ →
      mW4.transition_ (i * mW4.nbStates_ + j) = Dbl.fin (trW4 i j) := by
    intro i hi j hj
    have hj2 : j < 2 := hj
    have e : mW4.transition_ (i * mW4.nbStates_ + j)
        = Dbl.fin (trW4 ((i * 2 + j) / 2) ((i * 2 + j) % 2)) := rfl
    rw [e, flatIdx_div hj2, flatIdx_mod hj2]
  have hgpos : 0 < (Finset.range mW4.nbStates_).sum gW4 := by
    show 0 < (Finset.range 2).sum gW4
    norm_num [gW4, Finset.sum_range_succ]
  have htpos : ∀ i, i < mW4.nbStates_ → 0 < (Finset.range mW4.nbStates_).sum (trW4 i) := by
    intro i hi
    have h2 : i < 2 := hi
    have : i = 0 ∨ i = 1 := by omega
    rcases this with h | h <;> subst h <;>
      [show 0 < (Finset.range 2).sum (trW4 0); show 0 < (Finset.range 2).sum (trW4 1)] <;>
      norm_num [trW4, Finset.sum_range_succ]
  exact ⟨⟨fun i _ => rfl, hgpos, htpos⟩,
    hmm_normalize_makes_simplices mW4 gW4 trW4 (fun i _ => rfl) ht hgpos htpos⟩

theorem setLeftRight_prior (m : HMM) {i : ℕ} (hi : i < m.nbStates_) :
    (m.setLeftRight).prior_ i = Dbl.fin (if i = 0 then 1 else 0) := by
  simp only [HMM.setLeftRight, if_pos hi]
  split <;> rfl

theorem setLeftRight_transition (m : HMM) (hS : 1 ≤ m.nbStates_) {i j : ℕ}
    (hi : i < m.nbStates_) (hj : j < m.nbStates_) :
    (m.setLeftRight).transition_ (i * m.nbStates_ + j)
      = Dbl.fin (lrEntry m.nbStates_ i j) := by
  simp only [HMM.setLeftRight, if_pos (flatIdx_lt hi hj)]
  rw [flatIdx_div hj, flatIdx_mod hj]
  simp only [flat_eq_last_iff hS hi hj]
  unfold lrEntry
  split_ifs <;> rfl

/-- Every row of the left-right matrix sums to 1. -/
theorem lr_row_sum {S i : ℕ} (hS : 1 ≤ S) (hi : i < S) :
    (Finset.range S).sum (fun j => lrEntry S i j) = 1 := by
  by_cases hlast : i = S - 1
  · subst hlast
    have congr1 : ∀ j ∈ Finset.range S,
        lrEntry S (S - 1) j = (if j = S - 1 then (1:ℚ) else 0) := by
      intro j hj
      simp only [Finset.mem_range] at hj
      unfold lrEntry
      by_cases hje : j = S - 1
      · simp [hje]
      · rw [if_neg (by tauto), if_neg (by omega), if_neg hje]
    rw [Finset.sum_congr rfl congr1,
      Finset.sum_ite_eq' (Finset.range S) (S - 1) (fun _ => (1:ℚ)),
      if_pos (Finset.mem_range.mpr (by omega))]
  · have hlt : i < S - 1 := by omega
    have hi1 : i + 1 < S := by omega
    have congr2 : ∀ j ∈ Finset.range S, lrEntry S i j
        = (if j = i then (1:ℚ) / 2 else 0) + (if j = i + 1 then (1:ℚ) / 2 else 0) := by
      intro j hj
      simp only [Finset.mem_range] at hj
      unfold lrEntry
      rw [if_neg (by tauto)]
      by_cases hji : j = i
      · rw [if_pos (by omega), if_pos hji, if_neg (by omega)]
        norm_num
      · by_cases hji1 : j = i + 1
        · rw [if_pos (by omega), if_neg (by omega), if_pos hji1]
          norm_num
        · rw [if_neg (by omega), if_neg hji, if_neg hji1]
          norm_num
    rw [Finset.sum_congr rfl congr2, Finset.sum_add_distrib,
      Finset.sum_ite_eq' (Finset.range S) i (fun _ => (1:ℚ) / 2),
      Finset.sum_ite_eq' (Finset.range S) (i + 1) (fun _ => (1:ℚ) / 2),
      if_pos (Finset.mem_range.mpr hi), if_pos (Finset.mem_range.mpr hi1)]
    norm_num

/-- Normalization leaves a model already holding the normalized
left-right values (one-hot prior, `lrEntry` matrix) unchanged on the
in-range entries: every divisor is exactly 1. -/
theorem normalize_keeps_lr (m : HMM) (hS : 1 ≤ m.nbStates_)
    (hp : ∀ i, i < m.nbStates_ → m.prior_ i = Dbl.fin (if i = 0 then 1 else 0))
    (ht : ∀ i, i < m.nbStates_ → ∀ j, j < m.nbStates_ →
      m.transition_ (i * m.nbStates_ + j) = Dbl.fin (lrEntry m.nbStates_ i j)) :
    (∀ i, i < m.nbStates_ → (m.normalizeTransitions).prior_ i = m.prior_ i) ∧
    (∀ i, i < m.nbStates_ → ∀ j, j < m.nbStates_ →
      (m.normalizeTransitions).transition_ (i * m.nbStates_ + j)
        = m.transition_ (i * m.nbStates_ + j)) := by
  have hpsum : Dbl.sumTo m.prior_ m.nbStates_ = Dbl.fin 1 := by
    rw [Dbl.sumTo_fin hp, Finset.sum_ite_eq' (Finset.range m.nbStates_) 0 (fun _ => (1:ℚ)),
      if_pos (Finset.mem_range.mpr (by omega))]
  constructor
  · intro i hi
    simp only [HMM.normalizeTransitions, if_pos hi]
    rw [hpsum, hp i hi, Dbl.div_fin _ one_ne_zero, div_one]
  · intro i hi j hj
    have hrow : Dbl.sumTo (fun j2 => m.transition_ (i * m.nbStates_ + j2)) m.nbStates_
        = Dbl.fin 1 := by
      rw [Dbl.sumTo_fin (fun j2 hj2 => ht i hi j2 hj2), lr_row_sum hS hi]
    simp only [HMM.normalizeTransitions, if_pos (flatIdx_lt hi hj)]
    rw [flatIdx_div hj, hrow, ht i hi j hj, Dbl.div_fin _ one_ne_zero, div_one]

/-- C5: for every state count `S ≥ 1`, `setLeftRight` followed by
`normalizeTransitions` is idempotent: the pair applied once yields the
one-hot prior and the left-right matrix (0.5 on self and next for each
non-final state, 1 on the final self-loop, the `lrEntry` values), the
pair applied again yields exactly the same in-range values, and a second
`normalizeTransitions` changes no in-range value. -/
theorem hmm_setLeftRight_normalize_idempotent (m : HMM) (hS : 1 ≤ m.nbStates_) :
    (∀ i, i < m.nbStates_ →
      ((m.setLeftRight).normalizeTransitions).prior_ i = Dbl.fin (if i = 0 then 1 else 0) ∧
      ((((m.setLeftRight).normalizeTransitions).setLeftRight).normalizeTransitions).prior_ i
        = ((m.setLeftRight).normalizeTransitions).prior_ i ∧
      (((m.setLeftRight).normalizeTransitions).normalizeTransitions).prior_ i
        = ((m.setLeftRight).normalizeTransitions).prior_ i) ∧
    (∀ i, i < m.nbStates_ → ∀ j, j < m.nbStates_ →
      ((m.setLeftRight).normalizeTransitions).transition_ (i * m.nbStates_ + j)
        = Dbl.fin (lrEntry m.nbStates_ i j) ∧
      ((((m.setLeftRight).normalizeTransitions).setLeftRight).normalizeTransitions).transition_
          (i * m.nbStates_ + j)
        = ((m.setLeftRight).normalizeTransitions).transition_ (i * m.nbStates_ + j) ∧
      (((m.setLeftRight).normalizeTransitions).normalizeTransitions).transition_
          (i * m.nbStates_ + j)
        = ((m.setLeftRight).normalizeTransitions).transition_ (i * m.nbStates_ + j)) := by
  have h1 := normalize_keeps_lr (m.setLeftRight) hS
    (fun i hi => setLeftRight_prior m hi)
    (fun i hi j hj => setLeftRight_transition m hS hi hj)
  have hm1p : ∀ i, i < m.nbStates_ →
      ((m.setLeftRight).normalizeTransitions).prior_ i
        = Dbl.fin (if i = 0 then 1 else 0) :=
    fun i hi => (h1.1 i hi).trans (setLeftRight_prior m hi)
  have hm1t : ∀ i, i < m.nbStates_ → ∀ j, j < m.nbStates_ →
      ((m.setLeftRight).normalizeTransitions).transition_ (i * m.nbStates_ + j)
        = Dbl.fin (lrEntry m.nbStates_ i j) :=
    fun i hi j hj => (h1.2 i hi j hj).trans (setLeftRight_transition m hS hi hj)
  have h2 := normalize_keeps_lr ((m.setLeftRight).normalizeTransitions) hS hm1p hm1t
  have h3 := normalize_keeps_lr (((m.setLeftRight).normalizeTransitions).setLeftRight) hS
    (fun i hi => setLeftRight_prior ((m.setLeftRight).normalizeTransitions) hi)
    (fun i hi j hj => setLeftRight_transition ((m.setLeftRight).normalizeTransitions) hS hi hj)
  refine ⟨fun i hi => ⟨hm1p i hi, ?_, h2.1 i hi⟩,
    fun i hi j hj => ⟨hm1t i hi j hj, ?_, h2.2 i hi j hj⟩⟩
  · exact (h3.1 i hi).trans
      ((setLeftRight_prior ((m.setLeftRight).normalizeTransitions) hi).trans (hm1p i hi).symm)
  · exact (h3.2 i hi j hj).trans
      ((setLeftRight_transition ((m.setLeftRight).normalizeTransitions) hS hi hj).trans
        (hm1t i hi j hj).symm)

/-- C5 witness: the idempotence theorem applied to the 2-state fixture
`mW4`. -/
theorem hmm_setLeftRight_normalize_idempotent_witness :
    (1 ≤ mW4.nbStates_) ∧
    ((∀ i, i < mW4.nbStates_ →
      ((mW4.setLeftRight).normalizeTransitions).prior_ i = Dbl.fin (if i = 0 then 1 else 0) ∧
      ((((mW4.setLeftRight).normalizeTransitions).setLeftRight).normalizeTransitions).prior_ i
        = ((mW4.setLeftRight).normalizeTransitions).prior_ i ∧
      (((mW4.setLeftRight).normalizeTransitions).normalizeTransitions).prior_ i
        = ((mW4.setLeftRight).normalizeTransitions).prior_ i) ∧
    (∀ i, i < mW4.nbStates_ → ∀ j, j < mW4.nbStates_ →
      ((mW4.setLeftRight).normalizeTransitions).transition_ (i * mW4.nbStates_ + j)
        = Dbl.fin (lrEntry mW4.nbStates_ i j) ∧
      ((((mW4.setLeftRight).normalizeTransitions).setLeftRight).normalizeTransitions).transition_
          (i * mW4.nbStates_ + j)
        = ((mW4.setLeftRight).normalizeTransitions).transition_ (i * mW4.nbStates_ + j) ∧
      (((mW4.setLeftRight).normalizeTransitions).normalizeTransitions).transition_
          (i * mW4.nbStates_ + j)
        = ((mW4.setLeftRight).normalizeTransitions).transition_ (i * mW4.nbStates_ + j))) :=
  ⟨by decide, hmm_setLeftRight_normalize_idempotent mW4 (by decide)⟩

/-- C6: on an observation for which every state's emission likelihood is
0 (so the normalizing constant is 0), `forward_init` and
`forward_update` raise no error, set every in-range `alpha[i]` to the
uniform value `1/S`, and return scale factor 1 (model parameters and the
previous alpha assumed finite). -/
theorem hmm_forward_degenerate_uniform (m : HMM) (b : ℕ → Dbl) (gp ga gt : ℕ → ℚ)
    (hS : 1 ≤ m.nbStates_)
    (hb : ∀ i, i < m.nbStates_ → b i = Dbl.fin 0)
    (hp : ∀ i, i < m.nbStates_ → m.prior_ i = Dbl.fin (gp i))
    (ha : ∀ i, i < m.nbStates_ → m.alpha i = Dbl.fin (ga i))
    (ht : ∀ k, k < m.nbStates_ * m.nbStates_ → m.transition_ k = Dbl.fin (gt k)) :
    ((m.forward_init b).2 = Dbl.fin 1 ∧
     ∀ i, i < m.nbStates_ →
       (m.forward_init b).1.alpha i = Dbl.fin (1 / (m.nbStates_ : ℚ))) ∧
    ((m.forward_update b).2 = Dbl.fin 1 ∧
     ∀ i, i < m.nbStates_ →
       (m.forward_update b).1.alpha i = Dbl.fin (1 / (m.nbStates_ : ℚ))) := by
  have hSQ : ((m.nbStates_ : ℚ)) ≠ 0 := Nat.cast_ne_zero.mpr (by omega)
  have hlt : ((Dbl.fin 0).lt (Dbl.fin 0)) = false := by
    rw [Dbl.lt_fin]
    simp
  have huni : (Dbl.fin 1).div (Dbl.fin (m.nbStates_ : ℚ)) = Dbl.fin (1 / (m.nbStates_ : ℚ)) :=
    Dbl.div_fin 1 hSQ
  constructor
  · have ha0 : ∀ i, i < m.nbStates_ → (m.prior_ i).mul (b i) = Dbl.fin 0 := by
      intro i hi
      rw [hp i hi, hb i hi, Dbl.mul_fin, mul_zero]
    have hnc : Dbl.sumTo (fun i => (m.prior_ i).mul (b i)) m.nbStates_ = Dbl.fin 0 := by
      rw [Dbl.sumTo_fin (g := fun _ => (0:ℚ)) ha0]
      simp
    simp only [HMM.forward_init, hnc, hlt, Bool.false_eq_true, if_false]
    exact ⟨trivial, fun i hi => by rw [if_pos hi, huni]⟩
  · have ha1 : ∀ j, j < m.nbStates_ →
        (Dbl.sumTo (fun i => (m.alpha i).mul (m.transition_ (i * m.nbStates_ + j)))
          m.nbStates_).mul (b j) = Dbl.fin 0 := by
      intro j hj
      have hinner : ∀ i, i < m.nbStates_ →
          (m.alpha i).mul (m.transition_ (i * m.nbStates_ + j))
            = Dbl.fin (ga i * gt (i * m.nbStates_ + j)) := by
        intro i hi
        rw [ha i hi, ht _ (flatIdx_lt hi hj), Dbl.mul_fin]
      rw [Dbl.sumTo_fin hinner, hb j hj, Dbl.mul_fin, mul_zero]
    have hnc : Dbl.sumTo (fun j =>
        (Dbl.sumTo (fun i => (m.alpha i).mul (m.transition_ (i * m.nbStates_ + j)))
          m.nbStates_).mul (b j)) m.nbStates_ = Dbl.fin 0 := by
      rw [Dbl.sumTo_fin (g := fun _ => (0:ℚ)) ha1]
      simp
    simp only [HMM.forward_update, hnc, hlt, Bool.false_eq_true, if_false]
    exact ⟨trivial, fun i hi => by rw [if_pos hi, huni]⟩

/-- C6 witness: the degenerate-observation theorem applied to `mW7` and
the all-zero likelihood. -/
theorem hmm_forward_degenerate_uniform_witness :
    ((1 ≤ mW7.nbStates_) ∧ (∀ i, i < mW7.nbStates_ → bZero i = Dbl.fin 0)) ∧
    (((mW7.forward_init bZero).2 = Dbl.fin 1 ∧
      ∀ i, i < mW7.nbStates_ →
        (mW7.forward_init bZero).1.alpha i = Dbl.fin (1 / (mW7.nbStates_ : ℚ))) ∧
     ((mW7.forward_update bZero).2 = Dbl.fin 1 ∧
      ∀ i, i < mW7.nbStates_ →
        (mW7.forward_update bZero).1.alpha i = Dbl.fin (1 / (mW7.nbStates_ : ℚ)))) :=
  ⟨⟨by decide, fun i _ => rfl⟩,
    hmm_forward_degenerate_uniform mW7 bZero gW4 gW4 (fun k => trW4 (k / 2) (k % 2))
      (by decide) (fun i _ => rfl) (fun i _ => rfl) (fun i _ => rfl) (fun k _ => rfl)⟩

/-- C7: after `forward_init` or `forward_update` with a positive (finite)
normalizing constant, the in-range alpha entries sum to exactly 1 in this
rounding-free model of doubles. -/
theorem hmm_forward_scaling_invariant (m : HMM) (b : ℕ → Dbl) (gp ga gt gb : ℕ → ℚ)
    (hp : ∀ i, i < m.nbStates_ → m.prior_ i = Dbl.fin (gp i))
    (ha : ∀ i, i < m.nbStates_ → m.alpha i = Dbl.fin (ga i))
    (ht : ∀ k, k < m.nbStates_ * m.nbStates_ → m.transition_ k = Dbl.fin (gt k))
    (hb : ∀ i, i < m.nbStates_ → b i = Dbl.fin (gb i)) :
    (0 < (Finset.range m.nbStates_).sum (fun i => gp i * gb i) →
      Dbl.sumTo ((m.forward_init b).1.alpha) m.nbStates_ = Dbl.fin 1) ∧
    (0 < (Finset.range m.nbStates_).sum (fun j =>
        ((Finset.range m.nbStates_).sum (fun i => ga i * gt (i * m.nbStates_ + j))) * gb j) →
      Dbl.sumTo ((m.forward_update b).1.alpha) m.nbStates_ = Dbl.fin 1) := by
  constructor
  · intro hcpos
    have hC : ((Finset.range m.nbStates_).sum (fun i => gp i * gb i)) ≠ 0 := ne_of_gt hcpos
    have ha0 : ∀ i, i < m.nbStates_ →
        (m.prior_ i).mul (b i) = Dbl.fin (gp i * gb i) := by
      intro i hi
      rw [hp i hi, hb i hi, Dbl.mul_fin]
    have hnc : Dbl.sumTo (fun i => (m.prior_ i).mul (b i)) m.nbStates_
        = Dbl.fin ((Finset.range m.nbStates_).sum (fun i => gp i * gb i)) :=
      Dbl.sumTo_fin ha0
    have hltT : ((Dbl.fin 0).lt (Dbl.fin
        ((Finset.range m.nbStates_).sum (fun i => gp i * gb i)))) = true := by
      rw [Dbl.lt_fin, decide_eq_true_eq]
      exact hcpos
    simp only [HMM.forward_init, hnc, hltT, if_true]
    have hnew : ∀ i, i < m.nbStates_ →
        (if i < m.nbStates_ then
          ((m.prior_ i).mul (b i)).div
            (Dbl.fin ((Finset.range m.nbStates_).sum (fun i2 => gp i2 * gb i2)))
         else m.alpha i)
          = Dbl.fin ((gp i * gb i) / (Finset.range m.nbStates_).sum (fun i2 => gp i2 * gb i2)) := by
      intro i hi
      rw [if_pos hi, ha0 i hi, Dbl.div_fin _ hC]
    rw [Dbl.sumTo_fin hnew, ← Finset.sum_div, div_self hC]
  · intro hcpos
    have hC : ((Finset.range m.nbStates_).sum (fun j =>
        ((Finset.range m.nbStates_).sum (fun i => ga i * gt (i * m.nbStates_ + j))) * gb j))
          ≠ 0 := ne_of_gt hcpos
    have ha1 : ∀ j, j < m.nbStates_ →
        (Dbl.sumTo (fun i => (m.alpha i).mul (m.transition_ (i * m.nbStates_ + j)))
          m.nbStates_).mul (b j)
        = Dbl.fin (((Finset.range m.nbStates_).sum
            (fun i => ga i * gt (i * m.nbStates_ + j))) * gb j) := by
      intro j hj
      have hinner : ∀ i, i < m.nbStates_ →
          (m.alpha i).mul (m.transition_ (i * m.nbStates_ + j))
            = Dbl.fin (ga i * gt (i * m.nbStates_ + j)) := by
        intro i hi
        rw [ha i hi, ht _ (flatIdx_lt hi hj), Dbl.mul_fin]
      rw [Dbl.sumTo_fin hinner, hb j hj, Dbl.mul_fin]
    have hnc : Dbl.sumTo (fun j =>
        (Dbl.sumTo (fun i => (m.alpha i).mul (m.transition_ (i * m.nbStates_ + j)))
          m.nbStates_).mul (b j)) m.nbStates_
        = Dbl.fin ((Finset.range m.nbStates_).sum (fun j =>
            ((Finset.range m.nbStates_).sum (fun i => ga i * gt (i * m.nbStates_ + j))) * gb j)) :=
      Dbl.sumTo_fin ha1
    have hltT : ((Dbl.fin 0).lt (Dbl.fin ((Finset.range m.nbStates_).sum (fun j =>
        ((Finset.range m.nbStates_).sum (fun i => ga i * gt (i * m.nbStates_ + j))) * gb j))))
          = true := by
      rw [Dbl.lt_fin, decide_eq_true_eq]
      exact hcpos
    simp only [HMM.forward_update, hnc, hltT, if_true]
    have hnew : ∀ j, j < m.nbStates_ →
        (if j < m.nbStates_ then
          ((Dbl.sumTo (fun i => (m.alpha i).mul (m.transition_ (i * m.nbStates_ + j)))
            m.nbStates_).mul (b j)).div
            (Dbl.fin ((Finset.range m.nbStates_).sum (fun j2 =>
              ((Finset.range m.nbStates_).sum
                (fun i => ga i * gt (i * m.nbStates_ + j2))) * gb j2)))
         else m.alpha j)
          = Dbl.fin ((((Finset.range m.nbStates_).sum
              (fun i => ga i * gt (i * m.nbStates_ + j))) * gb j)
            / (Finset.range m.nbStates_).sum (fun j2 =>
                ((Finset.range m.nbStates_).sum
                  (fun i => ga i * gt (i * m.nbStates_ + j2))) * gb j2)) := by
      intro j hj
      rw [if_pos hj, ha1 j hj, Dbl.div_fin _ hC]
    rw [Dbl.sumTo_fin hnew, ← Finset.sum_div, div_self hC]

/-- C7 witness: the scaling invariant applied to `mW7` with the all-one
likelihood (both normalizing constants are 1). -/
theorem hmm_forward_scaling_invariant_witness :
    ((0 < (Finset.range mW7.nbStates_).sum (fun i => gW4 i * 1)) ∧
     (0 < (Finset.range mW7.nbStates_).sum (fun j =>
        ((Finset.range mW7.nbStates_).sum
          (fun i => gW4 i * (fun k => trW4 (k / 2) (k % 2)) (i * mW7.nbStates_ + j))) * 1))) ∧
    (Dbl.sumTo ((mW7.forward_init bOne).1.alpha) mW7.nbStates_ = Dbl.fin 1 ∧
     Dbl.sumTo ((mW7.forward_update bOne).1.alpha) mW7.nbStates_ = Dbl.fin 1) := by
  have h1 : 0 < (Finset.range mW7.nbStates_).sum (fun i => gW4 i * 1) := by
    show 0 < (Finset.range 2).sum (fun i => gW4 i * 1)
    norm_num [gW4, Finset.sum_range_succ]
  have h2 : 0 < (Finset.range mW7.nbStates_).sum (fun j =>
      ((Finset.range mW7.nbStates_).sum
        (fun i => gW4 i * (fun k => trW4 (k / 2) (k % 2)) (i * mW7.nbStates_ + j))) * 1) := by
    show 0 < (Finset.range 2).sum (fun j =>
      ((Finset.range 2).sum (fun i => gW4 i * trW4 ((i * 2 + j) / 2) ((i * 2 + j) % 2))) * 1)
    norm_num [gW4, trW4, Finset.sum_range_succ]
  have hmain := hmm_forward_scaling_invariant mW7 bOne gW4 gW4
    (fun k => trW4 (k / 2) (k % 2)) (fun _ => 1)
    (fun i _ => rfl) (fun i _ => rfl) (fun k _ => rfl) (fun i _ => rfl)
  exact ⟨⟨h1, h2⟩, hmain.1 h1, hmain.2 h2⟩

/-- C8: after `backward_update` every in-range beta entry is finite: the
clamp replaces any NaN or infinite value in place by the finite sentinel
1e100, and a finite raw value is stored unchanged. -/
theorem hmm_backward_clamp_finite (m : HMM) (ct : Dbl) (b : ℕ → Dbl) (i : ℕ)
    (hi : i < m.nbStates_) :
    (m.backward_update ct b).beta_ i
      = (if (m.backward_raw ct b i).isFinite then m.backward_raw ct b i
         else Dbl.fin (10 ^ 100)) ∧
    ((m.backward_update ct b).beta_ i).isFinite = true := by
  constructor
  · simp only [HMM.backward_update, if_pos hi]
  · simp only [HMM.backward_update, if_pos hi]
    rcases hraw : m.backward_raw ct b i with q | _ | _ | _ <;> simp [hraw, Dbl.isFinite]

/-- C8 witness: the clamp theorem applied to `mW7` with an infinite scale
factor (which makes the raw beta values non-finite). -/
theorem hmm_backward_clamp_finite_witness :
    (0 < mW7.nbStates_) ∧
    ((mW7.backward_update Dbl.inf bOne).beta_ 0
      = (if (mW7.backward_raw Dbl.inf bOne 0).isFinite then mW7.backward_raw Dbl.inf bOne 0
         else Dbl.fin (10 ^ 100)) ∧
     ((mW7.backward_update Dbl.inf bOne).beta_ 0).isFinite = true) :=
  ⟨by decide, hmm_backward_clamp_finite mW7 Dbl.inf bOne 0 (by decide)⟩

theorem forward_init_keeps (m : HMM) (b : ℕ → Dbl) :
    (m.forward_init b).1.prior_ = m.prior_ ∧
    (m.forward_init b).1.transitionMode_ = m.transitionMode_ ∧
    (m.forward_init b).1.estimateMeans_ = m.estimateMeans_ := by
  simp only [HMM.forward_init]
  refine ⟨?_, ?_, ?_⟩ <;> split <;> rfl

theorem forward_update_keeps (m : HMM) (b : ℕ → Dbl) :
    (m.forward_update b).1.prior_ = m.prior_ ∧
    (m.forward_update b).1.transitionMode_ = m.transitionMode_ ∧
    (m.forward_update b).1.estimateMeans_ = m.estimateMeans_ := by
  simp only [HMM.forward_update]
  refine ⟨?_, ?_, ?_⟩ <;> split <;> rfl

theorem bwForwardStep_keeps (obsP : ObsLik) (p : Phrase) (acc : HMM × List Dbl) (t : ℕ) :
    (HMM.bwForwardStep obsP p acc t).1.prior_ = acc.1.prior_ ∧
    (HMM.bwForwardStep obsP p acc t).1.transitionMode_ = acc.1.transitionMode_ ∧
    (HMM.bwForwardStep obsP p acc t).1.estimateMeans_ = acc.1.estimateMeans_ :=
  ⟨(forward_update_keeps acc.1 _).1, (forward_update_keeps acc.1 _).2.1,
    (forward_update_keeps acc.1 _).2.2⟩

theorem bwBackwardStep_keeps (obsP : ObsLik) (p : Phrase) (ctF : ℕ → Dbl) (acc : HMM)
    (t : ℕ) :
    (HMM.bwBackwardStep obsP p ctF acc t).prior_ = acc.prior_ ∧
    (HMM.bwBackwardStep obsP p ctF acc t).transitionMode_ = acc.transitionMode_ ∧
    (HMM.bwBackwardStep obsP p ctF acc t).estimateMeans_ = acc.estimateMeans_ :=
  ⟨rfl, rfl, rfl⟩

theorem foldl_keeps3 {α : Type} {f : HMM → α → HMM}
    (hf : ∀ mm a, (f mm a).prior_ = mm.prior_ ∧ (f mm a).transitionMode_ = mm.transitionMode_ ∧
      (f mm a).estimateMeans_ = mm.estimateMeans_) (l : List α) (mm : HMM) :
    (l.foldl f mm).prior_ = mm.prior_ ∧ (l.foldl f mm).transitionMode_ = mm.transitionMode_ ∧
    (l.foldl f mm).estimateMeans_ = mm.estimateMeans_ := by
  induction l generalizing mm with
  | nil => exact ⟨rfl, rfl, rfl⟩
  | cons a l2 ih =>
      refine ⟨?_, ?_, ?_⟩
      · exact (ih (f mm a)).1.trans (hf mm a).1
      · exact (ih (f mm a)).2.1.trans (hf mm a).2.1
      · exact (ih (f mm a)).2.2.trans (hf mm a).2.2

theorem foldl_pair_keeps3 {α : Type} {f : HMM × List Dbl → α → HMM × List Dbl}
    (hf : ∀ acc a, (f acc a).1.prior_ = acc.1.prior_ ∧
      (f acc a).1.transitionMode_ = acc.1.transitionMode_ ∧
      (f acc a).1.estimateMeans_ = acc.1.estimateMeans_) (l : List α) (acc : HMM × List Dbl) :
    (l.foldl f acc).1.prior_ = acc.1.prior_ ∧
    (l.foldl f acc).1.transitionMode_ = acc.1.transitionMode_ ∧
    (l.foldl f acc).1.estimateMeans_ = acc.1.estimateMeans_ := by
  induction l generalizing acc with
  | nil => exact ⟨rfl, rfl, rfl⟩
  | cons a l2 ih =>
      refine ⟨?_, ?_, ?_⟩
      · exact (ih (f acc a)).1.trans (hf acc a).1
      · exact (ih (f acc a)).2.1.trans (hf acc a).2.1
      · exact (ih (f acc a)).2.2.trans (hf acc a).2.2

set_option maxHeartbeats 1000000 in
theorem bwForward_keeps (obsP : ObsLik) (p : Phrase) (m : HMM) :
    (HMM.bwForward obsP p m).1.prior_ = m.prior_ ∧
    (HMM.bwForward obsP p m).1.transitionMode_ = m.transitionMode_ ∧
    (HMM.bwForward obsP p m).1.estimateMeans_ = m.estimateMeans_ := by
  unfold HMM.bwForward
  refine ⟨?_, ?_, ?_⟩
  · exact (foldl_pair_keeps3 (bwForwardStep_keeps obsP p) _ _).1.trans
      (forward_init_keeps m _).1
  · exact (foldl_pair_keeps3 (bwForwardStep_keeps obsP p) _ _).2.1.trans
      (forward_init_keeps m _).2.1
  · exact (foldl_pair_keeps3 (bwForwardStep_keeps obsP p) _ _).2.2.trans
      (forward_init_keeps m _).2.2

set_option maxHeartbeats 1000000 in
theorem bwBackward_keeps (obsP : ObsLik) (p : Phrase) (cts : List Dbl) (m : HMM) :
    (HMM.bwBackward obsP p cts m).prior_ = m.prior_ ∧
    (HMM.bwBackward obsP p cts m).transitionMode_ = m.transitionMode_ ∧
    (HMM.bwBackward obsP p cts m).estimateMeans_ = m.estimateMeans_ := by
  unfold HMM.bwBackward
  refine ⟨?_, ?_, ?_⟩
  · exact (foldl_keeps3 (bwBackwardStep_keeps obsP p _) _ _).1
  · exact (foldl_keeps3 (bwBackwardStep_keeps obsP p _) _ _).2.1
  · exact (foldl_keeps3 (bwBackwardStep_keeps obsP p _) _ _).2.2

set_option maxHeartbeats 1000000 in
theorem baumWelch_forwardBackward_keeps (obsP : ObsLik) (m : HMM) (p : Phrase)
    (phraseIndex : ℕ) :
    (HMM.baumWelch_forwardBackward obsP m p phraseIndex).prior_ = m.prior_ ∧
    (HMM.baumWelch_forwardBackward obsP m p phraseIndex).transitionMode_ = m.transitionMode_ ∧
    (HMM.baumWelch_forwardBackward obsP m p phraseIndex).estimateMeans_ = m.estimateMeans_ := by
  unfold HMM.baumWelch_forwardBackward
  refine ⟨?_, ?_, ?_⟩
  · exact (bwBackward_keeps obsP p _ _).1.trans (bwForward_keeps obsP p m).1
  · exact (bwBackward_keeps obsP p _ _).2.1.trans (bwForward_keeps obsP p m).2.1
  · exact (bwBackward_keeps obsP p _ _).2.2.trans (bwForward_keeps obsP p m).2.2

theorem baumWelch_gammaSum_keeps (m : HMM) :
    (m.baumWelch_gammaSum).prior_ = m.prior_ ∧
    (m.baumWelch_gammaSum).transitionMode_ = m.transitionMode_ ∧
    (m.baumWelch_gammaSum).estimateMeans_ = m.estimateMeans_ := ⟨rfl, rfl, rfl⟩

theorem bwZeroStates_keeps (m : HMM) :
    (m.bwZeroStates).prior_ = m.prior_ ∧
    (m.bwZeroStates).transitionMode_ = m.transitionMode_ ∧
    (m.bwZeroStates).estimateMeans_ = m.estimateMeans_ := ⟨rfl, rfl, rfl⟩

theorem baumWelch_estimateMixtureCoefficients_keeps (m : HMM) :
    (m.baumWelch_estimateMixtureCoefficients).prior_ = m.prior_ ∧
    (m.baumWelch_estimateMixtureCoefficients).transitionMode_ = m.transitionMode_ ∧
    (m.baumWelch_estimateMixtureCoefficients).estimateMeans_ = m.estimateMeans_ :=
  ⟨rfl, rfl, rfl⟩

theorem baumWelch_estimateMeans_keeps (m : HMM) :
    (m.baumWelch_estimateMeans).prior_ = m.prior_ ∧
    (m.baumWelch_estimateMeans).transitionMode_ = m.transitionMode_ ∧
    (m.baumWelch_estimateMeans).estimateMeans_ = m.estimateMeans_ := ⟨rfl, rfl, rfl⟩

theorem baumWelch_estimateCovariances_keeps (m : HMM) :
    (m.baumWelch_estimateCovariances).prior_ = m.prior_ ∧
    (m.baumWelch_estimateCovariances).transitionMode_ = m.transitionMode_ ∧
    (m.baumWelch_estimateCovariances).estimateMeans_ = m.estimateMeans_ := ⟨rfl, rfl, rfl⟩

theorem baumWelch_estimateTransitions_keeps (m : HMM) :
    (m.baumWelch_estimateTransitions).prior_ = m.prior_ ∧
    (m.baumWelch_estimateTransitions).transitionMode_ = m.transitionMode_ ∧
    (m.baumWelch_estimateTransitions).estimateMeans_ = m.estimateMeans_ := ⟨rfl, rfl, rfl⟩

/-- The re-estimation tail of one Baum-Welch iteration leaves the prior
untouched whenever the topology is left-right. -/
theorem bwTail_keeps_prior (m4 : HMM)
    (h : m4.transitionMode_ = TRANSITION_MODE.LEFT_RIGHT) :
    (m4.bwTail).prior_ = m4.prior_ := by
  simp only [HMM.bwTail]
  have h5tm : (if m4.estimateMeans_ then m4.baumWelch_estimateMeans else m4).transitionMode_
      = m4.transitionMode_ := by
    split
    · exact (baumWelch_estimateMeans_keeps m4).2.1
    · rfl
  have h5p : (if m4.estimateMeans_ then m4.baumWelch_estimateMeans else m4).prior_
      = m4.prior_ := by
    split
    · exact (baumWelch_estimateMeans_keeps m4).1
    · rfl
  have hc : ¬(((if m4.estimateMeans_ then m4.baumWelch_estimateMeans
      else m4).baumWelch_estimateCovariances).transitionMode_ = TRANSITION_MODE.ERGODIC) := by
    rw [(baumWelch_estimateCovariances_keeps _).2.1, h5tm, h]
    simp
  rw [(baumWelch_estimateTransitions_keeps _).1, if_neg hc,
    (baumWelch_estimateCovariances_keeps _).1, h5p]

theorem initTraining_prior_lr (m : HMM)
    (hmode : m.transitionMode_ = TRANSITION_MODE.LEFT_RIGHT) :
    (m.initTraining).prior_ = (m.setLeftRight).prior_ := by
  simp only [HMM.initTraining]
  rw [hmode]
  simp only [reduceCtorEq, if_false, reduceIte, setLeftRight_trainingSet]
  rcases hts : m.trainingSet with _ | ts <;> simp only [hts]
  all_goals
    split <;>
      first
      | rw [(initCovMix_keeps _).1, (initMeansMix_keeps _).1]
      | rw [(initCovSingle_keeps _).1, (initMeansFP_keeps _).1]

set_option maxHeartbeats 4000000 in
/-- C9: in left-right mode the prior is one-hot at state 0 after
`initTraining`, and one Baum-Welch iteration (`baumWelch_update`) leaves
the prior untouched: prior re-estimation runs only under the ergodic
topology. -/
theorem hmm_leftright_prior_fixed (m : HMM) (obsP : ObsLik)
    (hmode : m.transitionMode_ = TRANSITION_MODE.LEFT_RIGHT) :
    (∀ i, i < m.nbStates_ →
      (m.initTraining).prior_ i = Dbl.fin (if i = 0 then 1 else 0)) ∧
    (m.baumWelch_update obsP).prior_ = m.prior_ := by
  constructor
  · intro i hi
    rw [congrFun (initTraining_prior_lr m hmode) i, setLeftRight_prior m hi]
  · have hfold := foldl_keeps3
      (fun (mm : HMM) (a : ℕ × Phrase) => baumWelch_forwardBackward_keeps obsP mm a.2 a.1)
      ((m.trainingSet.getD []).enum) m
    have htm4 : ((((m.trainingSet.getD []).enum.foldl
        (fun acc pp => HMM.baumWelch_forwardBackward obsP acc pp.2 pp.1)
        m).baumWelch_gammaSum.bwZeroStates).baumWelch_estimateMixtureCoefficients).transitionMode_
        = TRANSITION_MODE.LEFT_RIGHT :=
      ((baumWelch_estimateMixtureCoefficients_keeps _).2.1.trans
        ((bwZeroStates_keeps _).2.1.trans
          ((baumWelch_gammaSum_keeps _).2.1.trans (hfold.2.1.trans hmode))))
    have hp4 : ((((m.trainingSet.getD []).enum.foldl
        (fun acc pp => HMM.baumWelch_forwardBackward obsP acc pp.2 pp.1)
        m).baumWelch_gammaSum.bwZeroStates).baumWelch_estimateMixtureCoefficients).prior_
        = m.prior_ :=
      ((baumWelch_estimateMixtureCoefficients_keeps _).1.trans
        ((bwZeroStates_keeps _).1.trans ((baumWelch_gammaSum_keeps _).1.trans hfold.1)))
    exact (bwTail_keeps_prior _ htm4).trans hp4

/-- C9 witness: the theorem applied to the 3-state left-right model
`mT3` with the all-one emission collaborator. -/
theorem hmm_leftright_prior_fixed_witness :
    (mT3.transitionMode_ = TRANSITION_MODE.LEFT_RIGHT) ∧
    ((∀ i, i < mT3.nbStates_ →
      (mT3.initTraining).prior_ i = Dbl.fin (if i = 0 then 1 else 0)) ∧
    (mT3.baumWelch_update obsOne).prior_ = mT3.prior_) :=
  ⟨by decide, hmm_leftright_prior_fixed mT3 obsOne (by decide)⟩

/-- C1: serializing a non-hierarchical model with `to_json` and feeding
the result to `from_json` does NOT succeed: `to_json` writes the
`exitProbabilities` field only for hierarchical models, while
`from_json` requires it unconditionally, so deserialization fails with a
structured parse error on that field (a debug build aborts on the
corresponding `assert`) instead of restoring the model. -/
theorem hmm_roundtrip_nonhierarchical_fails :
    c1flat.from_json c1flat.to_json
      = Except.error "Wrong field name: expected exitProbabilities, found states" := by
  rfl

